import Mathlib

/-!
# Verification of the JIT graph-fusion pass (`torch/csrc/jit/passes/graph_fuser.cpp`)

This file gives a shallow embedding of the graph fuser: the tensor-IR data
model it consumes, the op classifier, the fusability predicates, the group
builder, the chunk-distribution rewriter, and the fueled scanner/driver
(`run` / `FuseGraph`).  The IR container itself (nodes, values, uses, types)
is not part of the translated source file; its capabilities are modelled
from the specification (see the doc comments marked `Modelled from the
spec:`).  Every function of the pass itself is translated line by line from
`graph_fuser.cpp`.

Conventions of the embedding:
* a `Value` is identified by `ValueRef = (producing node id, output index)`;
  node id `0` is the pseudo-node producing the graph inputs (the param node);
* uses are derived by scanning the graph (a node `n` uses `v` iff `v` is
  among `n.inputs`; the return node uses `v` iff `v` is a graph output), so
  they are always consistent with the def-use structure;
* C++ exceptions / `JIT_ASSERT` failures are modelled by the `Outcome`
  monad's `asserted` result (locally by `Option`, with `none` = throw);
* the unbounded loops of the driver take explicit fuel; exhausting the fuel
  yields `Outcome.fuelOut`, which is distinct from an assertion failure.
-/

namespace GraphFuser

/-- Element kind of a tensor type.  Only `float` matters to the pass
(`hasFloatType` compares against `at::kFloat`). -/
inductive ScalarTy where
  | float
  | nonFloat
deriving DecidableEq, Repr

/-- Modelled from the spec: a tensor type exposes element kind, device
(`-1` = host, `≥ 0` = accelerator), sizes, strides, and derivations
`withSizesStrides` and `contiguous`. -/
structure TensorTy where
  scalar : ScalarTy
  device : Int
  sizes : List Nat
  strides : List Nat
deriving DecidableEq, Repr

/-- Row-major contiguous strides for a size list: `stride i = prod sizes (i+1..)`. -/
def contigStrides : List Nat → List Nat
  | [] => []
  | _ :: rest => rest.foldl (fun a b => a * b) 1 :: contigStrides rest

/-- Modelled from the spec: `TensorType::contiguous()` keeps sizes and
recomputes row-major strides. -/
def TensorTy.contiguous (t : TensorTy) : TensorTy :=
  { t with strides := contigStrides t.sizes }

/-- Modelled from the spec: `TensorType::withSizesStrides`. -/
def TensorTy.withSizesStrides (t : TensorTy) (s st : List Nat) : TensorTy :=
  { t with sizes := s, strides := st }

/-- A value's type: a tensor type or some non-tensor type (e.g. a handle).
A `Value` with no type at all is modelled as `Option Ty = none`. -/
inductive Ty where
  | tensor (t : TensorTy)
  | other
deriving DecidableEq, Repr

/-- `type()->cast<TensorType>()`: `some` iff the (present) type is a tensor. -/
def expectTensor : Option Ty → Option TensorTy
  | some (Ty.tensor t) => some t
  | _ => none

/-- Node kinds distinguished by the pass: the closed simple-map set of
`graph_fuser.cpp`, the structural kinds `kFusionGroup`, `kcat`, `ksplit`,
the param pseudo-kind for graph inputs, and an opaque tag for every other
operator. -/
inductive NodeKind where
  | k__and__ | k__lshift__ | k__or__ | k__rshift__ | k__xor__
  | kabs | kacos | kadd | kasin | katan | katan2
  | kceil | kclamp | kcos | kcosh | kdiv
  | keq | kexp | kfloor | kfmod | kfrac
  | kge | kgt | kle | klerp | klgamma
  | klog | klog1p | klt | kmax | kmin
  | kmul | kne | kneg | kones | kpow
  | kreciprocal | kremainder | kround | krsqrt
  | ksigmoid | ksin | ksinh | ksqrt | ksub
  | ktan | ktanh | ktrunc | kzeros
  | k_sigmoid_backward | k_tanh_backward
  | kFusionGroup | kcat | ksplit
  | kParam
  | kOther (tag : Nat)
deriving Repr

open NodeKind

/-- A flat numeric code for `NodeKind` (decidable equality through it keeps
the instance's term shallow). -/
def NodeKind.code : NodeKind → Nat
  | k__and__ => 0 | k__lshift__ => 1 | k__or__ => 2 | k__rshift__ => 3 | k__xor__ => 4
  | kabs => 5 | kacos => 6 | kadd => 7 | kasin => 8 | katan => 9 | katan2 => 10
  | kceil => 11 | kclamp => 12 | kcos => 13 | kcosh => 14 | kdiv => 15
  | keq => 16 | kexp => 17 | kfloor => 18 | kfmod => 19 | kfrac => 20
  | kge => 21 | kgt => 22 | kle => 23 | klerp => 24 | klgamma => 25
  | klog => 26 | klog1p => 27 | klt => 28 | kmax => 29 | kmin => 30
  | kmul => 31 | kne => 32 | kneg => 33 | kones => 34 | kpow => 35
  | kreciprocal => 36 | kremainder => 37 | kround => 38 | krsqrt => 39
  | ksigmoid => 40 | ksin => 41 | ksinh => 42 | ksqrt => 43 | ksub => 44
  | ktan => 45 | ktanh => 46 | ktrunc => 47 | kzeros => 48
  | k_sigmoid_backward => 49 | k_tanh_backward => 50
  | kFusionGroup => 51 | kcat => 52 | ksplit => 53
  | kParam => 54
  | kOther tag => tag + 55

/-- Decoder for `NodeKind.code` (total; codes `≥ 55` decode the opaque tag). -/
def NodeKind.ofCode (n : Nat) : NodeKind :=
  match n with
  | 0 => k__and__ | 1 => k__lshift__ | 2 => k__or__ | 3 => k__rshift__ | 4 => k__xor__
  | 5 => kabs | 6 => kacos | 7 => kadd | 8 => kasin | 9 => katan | 10 => katan2
  | 11 => kceil | 12 => kclamp | 13 => kcos | 14 => kcosh | 15 => kdiv
  | 16 => keq | 17 => kexp | 18 => kfloor | 19 => kfmod | 20 => kfrac
  | 21 => kge | 22 => kgt | 23 => kle | 24 => klerp | 25 => klgamma
  | 26 => klog | 27 => klog1p | 28 => klt | 29 => kmax | 30 => kmin
  | 31 => kmul | 32 => kne | 33 => kneg | 34 => kones | 35 => kpow
  | 36 => kreciprocal | 37 => kremainder | 38 => kround | 39 => krsqrt
  | 40 => ksigmoid | 41 => ksin | 42 => ksinh | 43 => ksqrt | 44 => ksub
  | 45 => ktan | 46 => ktanh | 47 => ktrunc | 48 => kzeros
  | 49 => k_sigmoid_backward | 50 => k_tanh_backward
  | 51 => kFusionGroup | 52 => kcat | 53 => ksplit
  | 54 => kParam
  | n + 55 => kOther n

/-- `ofCode` inverts `code` (stated as a definition so that the decidable
equality instance below can precede the theorem sections). -/
def NodeKind.ofCode_code : ∀ k : NodeKind, NodeKind.ofCode k.code = k := fun k => by
  cases k <;> rfl

instance : DecidableEq NodeKind := fun a b =>
  decidable_of_iff (a.code = b.code)
    ⟨fun h => by rw [← NodeKind.ofCode_code a, ← NodeKind.ofCode_code b, h],
     fun h => by rw [h]⟩

/-- The `simple_mappable` set from the source, as a list (the source uses an
`unordered_set`; membership is all that is consumed). -/
def simple_mappable : List NodeKind :=
  [k__and__, k__lshift__, k__or__, k__rshift__, k__xor__,
   kabs, kacos, kadd, kasin, katan, katan2,
   kceil, kclamp, kcos, kcosh, kdiv,
   keq, kexp, kfloor, kfmod, kfrac,
   kge, kgt, kle, klerp, klgamma,
   klog, klog1p, klt, kmax, kmin,
   kmul, kne, kneg, kones, kpow,
   kreciprocal, kremainder, kround, krsqrt,
   ksigmoid, ksin, ksinh, ksqrt, ksub,
   ktan, ktanh, ktrunc, kzeros,
   k_sigmoid_backward, k_tanh_backward]

/-- Reference to a value: the id of its producing node (0 = the param
pseudo-node holding the graph inputs) and the output index (`offset`). -/
structure ValueRef where
  node : Nat
  idx : Nat
deriving DecidableEq, Repr

/-- A node of a fusion group's subgraph.  Subgraph nodes are never fusion
groups themselves (`mergeNodeIntoGroup` asserts this), so they carry no
nested subgraph. -/
structure PNode where
  id : Nat
  kind : NodeKind
  inputs : List ValueRef
  outTypes : List (Option Ty)
  stage : Nat
  attrs : Nat
deriving DecidableEq, Repr

/-- Modelled from the spec: the subgraph owned by a fusion group.  Its
inputs are in positional correspondence with the outer node's inputs and
its outputs with the outer node's outputs.  `fresh` is the next unused
inner node id (inner ids are a separate id space; 0 is the inner param). -/
structure SubGraph where
  inputTypes : List (Option Ty)
  nodes : List PNode
  outputs : List ValueRef
  fresh : Nat
deriving DecidableEq, Repr

/-- An outer-graph node.  `sub = some _` exactly for `kFusionGroup` nodes. -/
structure Node where
  id : Nat
  kind : NodeKind
  inputs : List ValueRef
  outTypes : List (Option Ty)
  stage : Nat
  attrs : Nat
  sub : Option SubGraph
deriving DecidableEq, Repr

/-- Modelled from the spec: the graph is a list of nodes in topological
order (exclusive of the param and return pseudo-nodes), with typed inputs
and a list of output values (the return node's inputs).  `fresh` is the
next unused node id. -/
structure Graph where
  inputTypes : List (Option Ty)
  nodes : List Node
  outputs : List ValueRef
  fresh : Nat
deriving DecidableEq, Repr

/-- A user of a value: a real node or the return node. -/
inductive User where
  | node (id : Nat)
  | ret
deriving DecidableEq, Repr

/-- Result of a (possibly fallible, possibly fueled) step of the pass. -/
inductive Outcome (α : Type) where
  | ok (a : α)
  | asserted
  | fuelOut
deriving DecidableEq, Repr

instance : Monad Outcome where
  pure := Outcome.ok
  bind x f := match x with
    | .ok a => f a
    | .asserted => .asserted
    | .fuelOut => .fuelOut

instance : LawfulMonad Outcome :=
  LawfulMonad.mk' Outcome
    (fun x => by cases x <;> rfl)
    (fun x f => rfl)
    (fun x f g => by cases x <;> rfl)

/-- Lift a C++ expression that may throw (modelled as `Option`). -/
def Outcome.lift : Option α → Outcome α
  | some a => .ok a
  | none => .asserted

/-- `JIT_ASSERT`. -/
def jassert (b : Bool) : Outcome Unit :=
  if b then .ok () else .asserted

/-! ## Graph access helpers -/

/-- The param pseudo-node producing the graph inputs (`graph->inputs()`
share one producing node; its index is 0 in the topological oracle). -/
def paramNode (g : Graph) : Node :=
  { id := 0, kind := kParam, inputs := [], outTypes := g.inputTypes,
    stage := 0, attrs := 0, sub := none }

/-- Find a node by id; id 0 yields the param pseudo-node. -/
def nodeOf (g : Graph) (id : Nat) : Option Node :=
  if id = 0 then some (paramNode g)
  else g.nodes.find? (fun n => decide (n.id = id))

/-- `Value::type()` as an `Option` (null type = `none`). -/
def typeOfValue (g : Graph) (v : ValueRef) : Option Ty :=
  match nodeOf g v.node with
  | some n => (n.outTypes.get? v.idx).join
  | none => none

/-- `Value::stage()`: the stage of the producing node (graph inputs are at
stage 0). -/
def stageOfValue (g : Graph) (v : ValueRef) : Option Nat :=
  (nodeOf g v.node).map (fun n => n.stage)

/-- The uses of a value: every node whose input list mentions it, plus the
return node if it is a graph output. -/
def usesOf (g : Graph) (v : ValueRef) : List User :=
  (g.nodes.filter (fun n => decide (v ∈ n.inputs))).map (fun n => User.node n.id)
    ++ (if v ∈ g.outputs then [User.ret] else [])

/-- Rewrite one node by id (used for in-place mutation of a fusion group's
input/output/subgraph fields). -/
def updateNode (g : Graph) (id : Nat) (f : Node → Node) : Graph :=
  { g with nodes := g.nodes.map (fun n => if n.id = id then f n else n) }

/-- `Value::replaceAllUsesWith`: reroute every use of `v` (node inputs and
graph outputs) to `w`. -/
def replaceAllUsesWith (g : Graph) (v w : ValueRef) : Graph :=
  { g with
    nodes := g.nodes.map (fun n =>
      { n with inputs := n.inputs.map (fun r => if r = v then w else r) }),
    outputs := g.outputs.map (fun r => if r = v then w else r) }

/-- `Node::destroy`: remove the node from the graph (the pass only destroys
nodes whose outputs have no remaining uses). -/
def destroy (g : Graph) (id : Nat) : Graph :=
  { g with nodes := g.nodes.eraseP (fun n => decide (n.id = id)) }

/-- Insert `n` immediately before the node with id `target` in a node list
(callers only use it with `target` present; if it is absent the node goes
to the end). -/
def insertBeforeId (l : List Node) (target : Nat) (n : Node) : List Node :=
  match l with
  | [] => [n]
  | m :: rest => if m.id = target then n :: m :: rest
                 else m :: insertBeforeId rest target n

/-- Insert `n` immediately after the node with id `target`. -/
def insertAfterId (l : List Node) (target : Nat) (n : Node) : List Node :=
  match l with
  | [] => [n]
  | m :: rest => if m.id = target then m :: n :: rest
                 else m :: insertAfterId rest target n

/-- The node immediately before the node with id `target` (for the driver's
reverse iteration: `++consumer->reverseIterator()`). -/
def prevNodeId (l : List Node) (target : Nat) : Option Nat :=
  match l with
  | [] => none
  | m :: rest =>
    if m.id = target then none
    else match prevNodeId rest target with
      | some p => some p
      | none => if (rest.any (fun n => decide (n.id = target))) then some m.id else none

/-! ## Topological oracle -/

/-- `topological_index`: an association list keyed by node id, plus the
index of the return node.  Lookup of a missing key yields 0, matching
`unordered_map::operator[]` default-insertion observed through comparisons. -/
structure TopoIdx where
  m : List (Nat × Nat)
  retI : Nat
deriving DecidableEq, Repr

def TopoIdx.lookupNode (t : TopoIdx) (id : Nat) : Nat :=
  ((t.m.find? (fun e => decide (e.1 = id))).map (fun e => e.2)).getD 0

def TopoIdx.lookupUser (t : TopoIdx) : User → Nat
  | User.node id => t.lookupNode id
  | User.ret => t.retI

def TopoIdx.set (t : TopoIdx) (id v : Nat) : TopoIdx :=
  { t with m := (id, v) :: t.m }

def TopoIdx.containsNode (t : TopoIdx) (id : Nat) : Bool :=
  t.m.any (fun e => decide (e.1 = id))

/-! ## Op classifier (`isSimpleMap`, `isCuda`, `hasFloatType`, …) -/

/-- `isSimpleMap` from the source: membership in `simple_mappable`, with
`min`/`max` demanding exactly two inputs (the unary form is a reduction). -/
def isSimpleMap (n : Node) : Bool :=
  if simple_mappable.contains n.kind then
    if n.kind = kmin ∨ n.kind = kmax then decide (n.inputs.length = 2)
    else true
  else false

/-- `isCuda`: `node->output()->type()->expect<TensorType>()->device() != -1`.
`none` models the exceptions: `output()` on a node without exactly one
output, or `expect` on a missing / non-tensor type. -/
def isCuda (n : Node) : Option Bool :=
  match n.outTypes with
  | [t] =>
    match t with
    | some (Ty.tensor tt) => some (decide (tt.device ≠ -1))
    | _ => none
  | _ => none

/-- `hasFloatType(Value*)`: the value has a type, the type is a tensor
type, and its scalar type is float. -/
def hasFloatType (t : Option Ty) : Bool :=
  match t with
  | some (Ty.tensor tt) => decide (tt.scalar = ScalarTy.float)
  | _ => false

/-- `allFloatIO` from the source (renamed): every output and every input
value has a float tensor type. -/
def allFloatInputsOutputs (g : Graph) (n : Node) : Bool :=
  n.outTypes.all hasFloatType && n.inputs.all (fun i => hasFloatType (typeOfValue g i))

/-- `isFusable`: fusion groups are always fusable; otherwise
`isSimpleMap(node) && allFloatIO(node) && isCuda(node)` with C++
short-circuit evaluation (so `isCuda`, which may throw, is reached only
when the first two conjuncts hold). -/
def isFusable (g : Graph) (n : Node) : Option Bool :=
  if n.kind = kFusionGroup then some true
  else if isSimpleMap n then
    if allFloatInputsOutputs g n then isCuda n else some false
  else some false

/-- Helper for the concat case of `isFusableAsExitNode`: every input's
tensor type has the given sizes (`expect` may throw → `none`). -/
def allInputsHaveSizes (g : Graph) (sz : List Nat) : List ValueRef → Option Bool
  | [] => some true
  | i :: rest => do
    let tt ← expectTensor (typeOfValue g i)
    if tt.sizes ≠ sz then some false else allInputsHaveSizes g sz rest

/-- `isFusableAsExitNode`: fusable nodes, and additionally `cat` on an
accelerator whose inputs all have identical sizes. -/
def isFusableAsExitNode (g : Graph) (n : Node) : Option Bool := do
  let f ← isFusable g n
  if f then some true
  else if n.kind ≠ kcat then some false
  else do
    let cu ← isCuda n
    if ¬ cu then some false
    else
      match n.inputs with
      | [] => none
      | i0 :: _ => do
        let t0 ← expectTensor (typeOfValue g i0)
        allInputsHaveSizes g t0.sizes n.inputs

/-! ## Fusability predicate (multi-use safety) -/

/-- `allUsersAreThisConsumerOrOccurAfterIt`: reject exactly when some use
by another node sits strictly before the consumer in the topological
index. -/
def allUsersAreThisConsumerOrOccurAfterIt (g : Graph) (idx : TopoIdx)
    (consumer : Nat) (producer : ValueRef) : Bool :=
  (usesOf g producer).all (fun u =>
    decide (u = User.node consumer)
      || !(decide (idx.lookupNode consumer > idx.lookupUser u)))

/-- `allUsersAreThisConsumer`: every use of the value is by `consumer`. -/
def allUsersAreThisConsumer (g : Graph) (consumer : Nat) (producer : ValueRef) : Bool :=
  (usesOf g producer).all (fun u => decide (u = User.node consumer))

/-- `shouldFuse`: the producing node is fusable and the multi-use condition
holds.  `none` models a thrown exception from `isFusable`. -/
def shouldFuse (g : Graph) (idx : TopoIdx) (consumer : Nat) (p : ValueRef) : Option Bool := do
  let pn ← nodeOf g p.node
  let f ← isFusable g pn
  some (f && allUsersAreThisConsumerOrOccurAfterIt g idx consumer p)

/-- `isChunk`: the node is a `split`. -/
def isChunk (n : Node) : Bool :=
  decide (n.kind = ksplit)

/-! ## Group builder -/

/-- Association lookup for the value remapping tables
(`inputs_map` / `inner_to_outer`). -/
def assocFind (m : List (ValueRef × ValueRef)) (k : ValueRef) : Option ValueRef :=
  (m.find? (fun e => decide (e.1 = k))).map (fun e => e.2)

/-- Position of the first occurrence of `v` (`std::find` followed by
iterator subtraction). -/
def posOf (v : ValueRef) : List ValueRef -> Option Nat
  | [] => none
  | w :: ws => if w = v then some 0 else (posOf v ws).map (fun i => i + 1)

/-- State of the input-adding loop of `mergeNodeIntoGroup`: the subgraph,
the group's outer input list, and `inputs_map`. -/
def addInputsStep (g : Graph) (st : SubGraph × List ValueRef × List (ValueRef × ValueRef))
    (input : ValueRef) : SubGraph × List ValueRef × List (ValueRef × ValueRef) :=
  let (s, gin, m) := st
  if (assocFind m input).isSome then st
  else
    ({ s with inputTypes := s.inputTypes ++ [typeOfValue g input] },
     gin ++ [input],
     m ++ [(input, ⟨0, s.inputTypes.length⟩)])

/-- Erase subgraph input `p` after rerouting its uses to `w`
(`replaceAllUsesWith` on the inner param value followed by `eraseInput(p)`;
in the positional encoding the params above `p` shift down by one). -/
def eraseParamRedirect (s : SubGraph) (p : Nat) (w : ValueRef) : SubGraph :=
  let remap : ValueRef → ValueRef := fun r =>
    if r.node = 0 then
      if r.idx = p then w
      else if r.idx > p then ⟨0, r.idx - 1⟩
      else r
    else r
  { s with
    inputTypes := s.inputTypes.eraseIdx p,
    nodes := s.nodes.map (fun n => { n with inputs := n.inputs.map remap }),
    outputs := s.outputs.map remap }

/-- `mergeNodeIntoGroup(group, n)`: clone `n` into the group's subgraph,
extending the paired outer/inner input lists with `n`'s unseen inputs, and
collapsing the self-referential input if `n`'s output was a group input.
Returns the updated graph and the inner clone's id.  `amb` is the graph's
current stage (the scanner's `setStageTemporary` guard).

Deviation from the C++ statement order only: the clone is prepended to the
subgraph body before the `eraseInput` renumbering instead of after; the
clone never uses the erased param (that would be a self-loop of `n`), so
the resulting subgraph is identical. -/
def mergeNodeIntoGroup (g : Graph) (gid nid : Nat) (amb : Nat) : Outcome (Graph × Nat) := do
  let n ← Outcome.lift (nodeOf g nid)
  _ ← jassert (n.kind ≠ kFusionGroup)
  let grp ← Outcome.lift (nodeOf g gid)
  _ ← jassert (grp.kind = kFusionGroup)
  let sub ← Outcome.lift grp.sub
  _ ← jassert (grp.inputs.length = sub.inputTypes.length)
  let m0 : List (ValueRef × ValueRef) :=
    grp.inputs.enum.map (fun e => (e.2, ⟨0, e.1⟩))
  let (sub1, gin1, m1) := n.inputs.foldl (addInputsStep g) (sub, grp.inputs, m0)
  let cin ← n.inputs.mapM (fun i => Outcome.lift (assocFind m1 i))
  let cid := sub1.fresh
  let clone : PNode :=
    { id := cid, kind := n.kind, inputs := cin, outTypes := n.outTypes,
      stage := amb, attrs := n.attrs }
  let sub2 : SubGraph := { sub1 with nodes := clone :: sub1.nodes, fresh := cid + 1 }
  _ ← jassert (n.outTypes.length = 1)
  let vout : ValueRef := ⟨nid, 0⟩
  match posOf vout gin1 with
  | none =>
    let g1 := updateNode g gid (fun nd => { nd with inputs := gin1, sub := some sub2 })
    return (g1, cid)
  | some p =>
    let gin2 := gin1.eraseIdx p
    let sub3 := eraseParamRedirect sub2 p ⟨cid, 0⟩
    let g1 := updateNode g gid (fun nd => { nd with inputs := gin2, sub := some sub3 })
    return (g1, cid)

/-- `createSingletonFusionGroup(n)`: allocate a fresh empty group before
`n` (Modelled from the spec: `createFusionGroup` starts with an empty
subgraph), give it `n`'s topological index, merge `n` into it, register the
merged output as a paired subgraph/outer output with `n`'s output
metadata, reroute `n`'s uses to the group and destroy `n`.  Returns the
updated graph, index and the group's id. -/
def createSingletonFusionGroup (g : Graph) (idx : TopoIdx) (nid : Nat) (amb : Nat) :
    Outcome (Graph × TopoIdx × Nat) := do
  let n ← Outcome.lift (nodeOf g nid)
  let gidN := g.fresh
  let grp : Node :=
    { id := gidN, kind := kFusionGroup, inputs := [], outTypes := [],
      stage := amb, attrs := 0, sub := some { inputTypes := [], nodes := [], outputs := [], fresh := 1 } }
  let idx1 := idx.set gidN (idx.lookupNode nid)
  let g1 : Graph := { g with nodes := insertBeforeId g.nodes nid grp, fresh := gidN + 1 }
  let (g2, merged) ← mergeNodeIntoGroup g1 gidN nid amb
  _ ← jassert (n.outTypes.length = 1)
  let g3 := updateNode g2 gidN (fun nd =>
    { nd with
      outTypes := nd.outTypes ++ [n.outTypes.headD none],
      sub := nd.sub.map (fun s => { s with outputs := s.outputs ++ [⟨merged, 0⟩] }) })
  let g4 := replaceAllUsesWith g3 ⟨nid, 0⟩ ⟨gidN, 0⟩
  return (destroy g4 nid, idx1, gidN)

/-- One clone step of `mergeFusionGroups`: clone an inner node of the
producer's subgraph into the outer graph (inputs remapped through the
running `inner_to_outer` map), insert it before the producer group, and
extend the map with its outputs.  The source does not register the
temporary clones in `topological_index`; neither do we. -/
def clonePStep (pgid : Nat) (amb : Nat)
    (st : Graph × List (ValueRef × ValueRef) × List Nat) (inner : PNode) :
    Outcome (Graph × List (ValueRef × ValueRef) × List Nat) := do
  let (g, m, temps) := st
  let ins ← inner.inputs.mapM (fun i => Outcome.lift (assocFind m i))
  let tid := g.fresh
  let outer : Node :=
    { id := tid, kind := inner.kind, inputs := ins, outTypes := inner.outTypes,
      stage := amb, attrs := inner.attrs, sub := none }
  let g1 : Graph := { g with nodes := insertBeforeId g.nodes pgid outer, fresh := tid + 1 }
  let m1 := m ++ (List.range inner.outTypes.length).map
    (fun i => ((⟨inner.id, i⟩ : ValueRef), (⟨tid, i⟩ : ValueRef)))
  return (g1, m1, temps ++ [tid])

/-- Absorption of one temporary node into the consumer group (the body of
the reverse loop at the end of `mergeFusionGroups`): merge it, expose each
of its still-used outputs as a paired subgraph/outer output, reroute, and
destroy the temporary. -/
def absorbTemp (cgid : Nat) (amb : Nat) (g : Graph) (tid : Nat) : Outcome Graph := do
  let (g1, merged) ← mergeNodeIntoGroup g cgid tid amb
  let t ← Outcome.lift (nodeOf g1 tid)
  let g2 ← (List.range t.outTypes.length).foldlM (fun g i => do
    if (usesOf g (⟨tid, i⟩ : ValueRef)).isEmpty then return g
    else do
      let cg ← Outcome.lift (nodeOf g cgid)
      let newIdx := cg.outTypes.length
      let ty := typeOfValue g ⟨tid, i⟩
      let g1 := updateNode g cgid (fun nd =>
        { nd with
          outTypes := nd.outTypes ++ [ty],
          sub := nd.sub.map (fun s => { s with outputs := s.outputs ++ [⟨merged, i⟩] }) })
      return replaceAllUsesWith g1 ⟨tid, i⟩ ⟨cgid, newIdx⟩) g1
  return destroy g2 tid

/-- `mergeFusionGroups(consumer_group, producer_group)`: un-fuse the
producer's subgraph into temporary outer nodes placed before the producer
group, reroute the producer group's outputs to the temporaries, destroy
the producer group, then absorb the temporaries into the consumer group in
reverse order. -/
def mergeFusionGroups (g : Graph) (cgid pgid : Nat) (amb : Nat) : Outcome Graph := do
  let pg ← Outcome.lift (nodeOf g pgid)
  _ ← jassert (pg.kind = kFusionGroup)
  let psub ← Outcome.lift pg.sub
  let m0 ← (List.range psub.inputTypes.length).mapM (fun i => do
    let o ← Outcome.lift (pg.inputs.get? i)
    return ((⟨0, i⟩ : ValueRef), o))
  let (g1, m1, temps) ← psub.nodes.foldlM (clonePStep pgid amb) (g, m0, [])
  let g2 ← psub.outputs.enum.foldlM (fun g e => do
    let outer ← Outcome.lift (assocFind m1 e.2)
    return replaceAllUsesWith g ⟨pgid, e.1⟩ outer) g1
  let g3 := destroy g2 pgid
  temps.reverse.foldlM (absorbTemp cgid amb) g3

/-- `fuse(consumer, producer)`: wrap a non-group consumer into a singleton
group, then absorb the producer (group-merge if it is itself a group;
otherwise merge the node, exposing it as a new paired output if external
uses remain, and destroy it).  Returns the resulting group's id. -/
def fuse (g : Graph) (idx : TopoIdx) (consumer : Nat) (p : ValueRef) (amb : Nat) :
    Outcome (Graph × TopoIdx × Nat) := do
  let c ← Outcome.lift (nodeOf g consumer)
  let (g1, idx1, gid) ←
    if c.kind ≠ kFusionGroup then createSingletonFusionGroup g idx consumer amb
    else pure (g, idx, consumer)
  let pn ← Outcome.lift (nodeOf g1 p.node)
  if pn.kind = kFusionGroup then do
    let g2 ← mergeFusionGroups g1 gid p.node amb
    return (g2, idx1, gid)
  else do
    let (g2, merged) ← mergeNodeIntoGroup g1 gid p.node amb
    if (usesOf g2 p).length ≠ 0 then do
      let grp2 ← Outcome.lift (nodeOf g2 gid)
      let newIdx := grp2.outTypes.length
      let ty := typeOfValue g2 p
      let g3 := updateNode g2 gid (fun nd =>
        { nd with
          outTypes := nd.outTypes ++ [ty],
          sub := nd.sub.map (fun s => { s with outputs := s.outputs ++ [⟨merged, 0⟩] }) })
      let g4 := replaceAllUsesWith g3 p ⟨gid, newIdx⟩
      return (destroy g4 p.node, idx1, gid)
    else
      return (destroy g2 p.node, idx1, gid)

/-! ## Chunk-distribution rewriter -/

/-- Build one distributed split (`input_chunk`) for operand `input`: a
fresh `split` node carrying the original chunk's attributes, with one
output per original chunk output, typed by the operand's tensor type with
the corresponding chunk output's sizes and strides. -/
def mkInputChunk (g : Graph) (chunk : Node) (input : ValueRef) (sid : Nat) (amb : Nat) :
    Outcome Node := do
  let itt ← Outcome.lift (expectTensor (typeOfValue g input))
  let souts ← chunk.outTypes.mapM (fun ct => do
    let ctt ← Outcome.lift (expectTensor ct)
    return some (Ty.tensor (itt.withSizesStrides ctt.sizes ctt.strides)))
  return { id := sid, kind := ksplit, inputs := [input], outTypes := souts,
           stage := amb, attrs := chunk.attrs, sub := none }

/-- `Node::input()`: the single input of a node (asserts that there is
exactly one). -/
def inputSingle : List ValueRef -> Outcome ValueRef
  | [v] => Outcome.ok v
  | _ => Outcome.asserted

/-- `tryToMoveChunk(consumer, producer)`: if `producer` comes from a
`split` whose splittee is fusable and used only by the split, and every
split output is used solely by `consumer`, distribute the split over the
splittee's operands: per operand a fresh split, per chunk index a clone of
the splittee typed contiguously, rerouting each original chunk output and
destroying the original split and splittee.  Returns `(graph, index,
changed)`. -/
def tryToMoveChunk (g : Graph) (idx : TopoIdx) (consumer : Nat) (p : ValueRef) (amb : Nat) :
    Outcome (Graph × TopoIdx × Bool) := do
  let chunk ← Outcome.lift (nodeOf g p.node)
  if ¬ isChunk chunk then return (g, idx, false)
  else do
  let pc ← inputSingle chunk.inputs
  let pcn ← Outcome.lift (nodeOf g pc.node)
  let fus ← Outcome.lift (isFusable g pcn)
  if ¬ (fus && allUsersAreThisConsumer g chunk.id pc) then return (g, idx, false)
  else do
  if ¬ ((List.range chunk.outTypes.length).all (fun i =>
      (usesOf g ⟨chunk.id, i⟩).all (fun u => decide (u = User.node consumer)))) then
    return (g, idx, false)
  else do
  _ ← jassert (pcn.outTypes.length = 1)
  let (g1, idx1, splitIds, ip1) ← pcn.inputs.foldlM
    (fun (st : Graph × TopoIdx × List Nat × Nat) input => do
      let (g, idx, sids, ip) := st
      let sid := g.fresh
      let sn ← mkInputChunk g chunk input sid amb
      let g1 : Graph := { g with nodes := insertAfterId g.nodes ip sn, fresh := sid + 1 }
      let idx1 := idx.set sid (idx.lookupNode ip)
      return (g1, idx1, sids ++ [sid], sid))
    (g, idx, [], chunk.id)
  let (g2, idx2, _) ← chunk.outTypes.enum.foldlM
    (fun (st : Graph × TopoIdx × Nat) e => do
      let (g, idx, ip) := st
      let ctt ← Outcome.lift (expectTensor e.2)
      let oid := g.fresh
      let opn : Node :=
        { id := oid, kind := pcn.kind,
          inputs := splitIds.map (fun sid => (⟨sid, e.1⟩ : ValueRef)),
          outTypes := [some (Ty.tensor ctt.contiguous)],
          stage := amb, attrs := pcn.attrs, sub := none }
      let g1 : Graph := { g with nodes := insertAfterId g.nodes ip opn, fresh := oid + 1 }
      let idx1 := idx.set oid (idx.lookupNode ip)
      let g2 := replaceAllUsesWith g1 ⟨chunk.id, e.1⟩ ⟨oid, 0⟩
      return (g2, idx1, oid))
    (g1, idx1, ip1)
  return (destroy (destroy g2 chunk.id) pc.node, idx2, true)

/-- The op clone inserted by one step of the clone loop of
`tryToMoveChunk` (abbreviation used by the loop characterisation). -/
def cloneNodeOf (pk : NodeKind) (pattrs amb fr : Nat) (splitIds : List Nat)
    (j : Nat) (ctt : TensorTy) : Node :=
  { id := fr, kind := pk, inputs := splitIds.map (fun sid => (⟨sid, j⟩ : ValueRef)),
    outTypes := [some (Ty.tensor ctt.contiguous)], stage := amb, attrs := pattrs,
    sub := none }

/-- The graph produced by one step of the clone loop of `tryToMoveChunk`:
insert the clone after the running anchor and reroute the chunk output to
it (abbreviation used by the loop characterisation). -/
def cloneStepGraph (pk : NodeKind) (pattrs amb cid : Nat) (splitIds : List Nat)
    (gs : Graph) (ip : Nat) (j : Nat) (ctt : TensorTy) : Graph :=
  replaceAllUsesWith
    { gs with
        nodes := insertAfterId gs.nodes ip (cloneNodeOf pk pattrs amb gs.fresh splitIds j ctt),
        fresh := gs.fresh + 1 }
    ⟨cid, j⟩ ⟨gs.fresh, 0⟩

/-- The value rewriting performed by the chunk distribution, read off an
association list from original chunk-output indices to the clone ids: a
reference to output `j` of the split becomes output 0 of the `j`-th op
clone; every other reference is untouched. -/
def redirectBy (cid : Nat) (assoc : List (Nat × Nat)) (r : ValueRef) : ValueRef :=
  if r.node = cid then
    match assoc.find? (fun a => decide (a.1 = r.idx)) with
    | some a => ⟨a.2, 0⟩
    | none => r
  else r

/-! ## Scanner / driver -/

/-- Stable descending insertion (model of `std::sort` with the comparator
`topological_index[a->node()] > topological_index[b->node()]`; ties keep
the original order, a choice `std::sort` leaves unspecified). -/
def insertDesc (key : ValueRef → Nat) (v : ValueRef) : List ValueRef → List ValueRef
  | [] => [v]
  | w :: ws => if key w < key v then v :: w :: ws else w :: insertDesc key v ws

def sortDesc (key : ValueRef → Nat) (l : List ValueRef) : List ValueRef :=
  l.foldl (fun acc v => insertDesc key v acc) []

/-- The producer loop of `scanNode`: walk the sorted input values, skip
producers in a different stage, and perform the first chunk move or fusion
found.  Returns the acted-on producer together with the mutated graph,
index, the node to rescan, and whether the action was a fusion. -/
def scanProducers (g : Graph) (idx : TopoIdx) (consumer : Nat) (amb : Nat) :
    List ValueRef → Outcome (Option (ValueRef × Graph × TopoIdx × Nat))
  | [] => return none
  | p :: rest => do
    let pstage ← Outcome.lift (stageOfValue g p)
    if pstage ≠ amb then scanProducers g idx consumer amb rest
    else do
      let (g1, idx1, moved) ← tryToMoveChunk g idx consumer p amb
      if moved then return some (p, g1, idx1, consumer)
      else do
        let sf ← Outcome.lift (shouldFuse g idx consumer p)
        if sf then do
          let (g2, idx2, gid) ← fuse g idx consumer p amb
          return some (p, g2, idx2, gid)
        else scanProducers g idx consumer amb rest

/-- `scanNode(consumer)`: if the consumer is a fusable exit node, sort its
input values in descending topological order (asserting that each
producing node has an index) and run the producer loop.  Returns the
mutated graph and index, the id of the node to continue scanning from
(`none` = advance past the consumer, which is only returned with the graph
unchanged), and whether anything changed. -/
def scanNode (g : Graph) (idx : TopoIdx) (consumer : Nat) :
    Outcome (Graph × TopoIdx × Option Nat × Bool) := do
  let c ← Outcome.lift (nodeOf g consumer)
  let amb := c.stage
  let ex ← Outcome.lift (isFusableAsExitNode g c)
  if ex then do
    _ ← c.inputs.foldlM (fun _ i => jassert (i.node = 0 || idx.containsNode i.node)) ()
    let sorted := sortDesc (fun v => idx.lookupNode v.node) c.inputs
    let r ← scanProducers g idx consumer amb sorted
    match r with
    | some (_, g1, idx1, target) => return (g1, idx1, some target, true)
    | none => return (g, idx, none, false)
  else return (g, idx, none, false)

/-- One reverse sweep from the node with id `cur` toward the first node,
following the iterator returned by `scanNode`.  Fueled: each `scanNode`
call consumes one unit. -/
def sweepFrom (fuel : Nat) (g : Graph) (idx : TopoIdx) (cur : Nat) (any : Bool) :
    Outcome (Graph × TopoIdx × Bool) :=
  match fuel with
  | 0 => Outcome.fuelOut
  | fuel + 1 => do
    let (g1, idx1, target, changed) ← scanNode g idx cur
    match target with
    | some t => sweepFrom fuel g1 idx1 t (any || changed)
    | none =>
      match prevNodeId g.nodes cur with
      | some p => sweepFrom fuel g idx p (any || changed)
      | none => return (g1, idx1, any || changed)

/-- One full reverse sweep (`for (auto it = nodes.rbegin(); …)`). -/
def sweep (fuel : Nat) (g : Graph) (idx : TopoIdx) : Outcome (Graph × TopoIdx × Bool) :=
  match g.nodes.getLast? with
  | none => return (g, idx, false)
  | some last => sweepFrom fuel g idx last.id false

/-- The `while (any_changed)` loop of `run`. -/
def runLoop (fuel : Nat) (g : Graph) (idx : TopoIdx) : Outcome Graph :=
  match fuel with
  | 0 => Outcome.fuelOut
  | fuel + 1 => do
    let (g1, idx1, changed) ← sweep (g.nodes.length * (g.nodes.length + 3) + fuel) g idx
    if changed then runLoop fuel g1 idx1 else return g1

/-- The topological oracle initialisation of `run`: inputs at 0, nodes at
1, 2, …, the return node last. -/
def initIdx (g : Graph) : TopoIdx :=
  { m := (0, 0) :: (g.nodes.enum.map (fun e => (e.2.id, e.1 + 1))),
    retI := g.nodes.length + 1 }

/-- `GraphFuser::run()`: initialise the topological oracle and iterate
full sweeps to a fixpoint.  Fueled. -/
def run (fuel : Nat) (g : Graph) : Outcome Graph :=
  runLoop fuel g (initIdx g)

/-- `FuseGraph(graph)`. -/
def FuseGraph (fuel : Nat) (g : Graph) : Outcome Graph :=
  run fuel g

/-! ## Measures and well-formedness (for the termination and safety claims) -/

/-- Count of non-group simple-map nodes in the outer graph (`isSimpleMap`
is already false on `kFusionGroup`). -/
def simpleMapCount (g : Graph) : Nat :=
  (g.nodes.filter isSimpleMap).length

/-- A chunk pattern eligible for distribution, as checked by
`tryToMoveChunk`: a split whose splittee is fusable and used only by the
split, and some fusable exit node consumes every split output exclusively. -/
def eligibleChunk (g : Graph) (s : Node) : Bool :=
  isChunk s &&
  (match s.inputs with
   | [pc] =>
     (match nodeOf g pc.node with
      | some pcn => (isFusable g pcn).getD false
      | none => false)
     && allUsersAreThisConsumer g s.id pc
     && g.nodes.any (fun c =>
          (isFusableAsExitNode g c).getD false
          && (List.range s.outTypes.length).all (fun i =>
               (usesOf g ⟨s.id, i⟩).all (fun u => decide (u = User.node c.id))))
   | _ => false)

/-- Count of eligible chunk patterns. -/
def eligibleChunkCount (g : Graph) : Nat :=
  (g.nodes.filter (eligibleChunk g)).length

/-- The measure named by the termination claim: non-group simple-map nodes
plus chunk patterns eligible for distribution. -/
def claimMeasure (g : Graph) : Nat :=
  simpleMapCount g + eligibleChunkCount g

/-- Validity of one value reference against the graph inputs and a list of
already-seen nodes. -/
def refOk (inTys : List (Option Ty)) (seen : List Node) (r : ValueRef) : Bool :=
  if r.node = 0 then decide (r.idx < inTys.length)
  else seen.any (fun n => decide (n.id = r.node) && decide (r.idx < n.outTypes.length))

/-- Nodes are well-formed relative to the prefix before them: every input
refers to a graph input or an earlier node's output (so the node list is a
topological linearisation of an acyclic graph). -/
def nodesWF (inTys : List (Option Ty)) : List Node → List Node → Bool
  | _, [] => true
  | seen, n :: rest =>
    n.inputs.all (refOk inTys seen) && decide (0 < n.id)
      && nodesWF inTys (seen ++ [n]) rest

/-- A well-formed input graph: topologically ordered acyclic def-use
structure, positive distinct node ids below `fresh`, valid outputs, and no
pre-existing fusion groups or subgraphs (`FuseGraph` is the pass that
introduces them). -/
def wellFormedInput (g : Graph) : Bool :=
  nodesWF g.inputTypes [] g.nodes
    && (g.nodes.map (fun n => n.id)).Nodup
    && g.nodes.all (fun n => decide (n.id < g.fresh) && decide (n.kind ≠ kFusionGroup) && n.sub.isNone)
    && g.outputs.all (refOk g.inputTypes g.nodes)

/-! ## Invariants (id discipline and the paired-count property) -/

/-- The paired input/output count constraint of one node: a fusion group
has as many outer inputs as subgraph inputs and as many outer outputs as
subgraph outputs. -/
def balancedNode (n : Node) : Prop :=
  n.kind = kFusionGroup →
    match n.sub with
    | some s => n.inputs.length = s.inputTypes.length ∧ n.outTypes.length = s.outputs.length
    | none => True

/-- Claim C2's invariant over a node list. -/
def balancedL (l : List Node) : Prop :=
  ∀ n ∈ l, balancedNode n

/-- Claim C2's invariant over a whole graph. -/
def balanced (g : Graph) : Prop :=
  balancedL g.nodes

/-- Pairwise distinct ids in a node list. -/
def uniqueIdsL (l : List Node) : Prop :=
  (l.map (fun n => n.id)).Nodup

/-- Node ids are pairwise distinct (distinct `Node*` objects in the IR). -/
def uniqueIds (g : Graph) : Prop :=
  uniqueIdsL g.nodes

/-- Every id in a node list is below the bound. -/
def freshBoundL (l : List Node) (fr : Nat) : Prop :=
  ∀ n ∈ l, n.id < fr

/-- Every node id is below the graph's fresh counter. -/
def freshBound (g : Graph) : Prop :=
  freshBoundL g.nodes g.fresh

/-- Well-formed identifier discipline. -/
def wfIds (g : Graph) : Prop :=
  uniqueIds g ∧ freshBound g

/-! ## Concrete example graphs -/

/-- A float tensor type on the accelerator (device 0). -/
def fcuda (s st : List Nat) : Option Ty :=
  some (Ty.tensor { scalar := ScalarTy.float, device := 0, sizes := s, strides := st })

/-- `2×2` float CUDA tensor. -/
def t22 : Option Ty := fcuda [2, 2] [2, 1]

/-- `1×2` float CUDA tensor (one chunk of a `2×2` split along dim 0). -/
def t12 : Option Ty := fcuda [1, 2] [2, 1]

/-- The graph from the source's own `run()` comment:
`%1 = f(x); %2 = g(%1); %3 = h(%1); %4 = l(%3); return (%4, %2)` with
`f = exp`, `g = tanh`, `h = sigmoid`, `l = neg`, all float CUDA. -/
def exTwoSweep : Graph :=
  { inputTypes := [t22],
    nodes :=
      [ { id := 1, kind := kexp, inputs := [⟨0, 0⟩], outTypes := [t22], stage := 0, attrs := 0, sub := none },
        { id := 2, kind := ktanh, inputs := [⟨1, 0⟩], outTypes := [t22], stage := 0, attrs := 0, sub := none },
        { id := 3, kind := ksigmoid, inputs := [⟨1, 0⟩], outTypes := [t22], stage := 0, attrs := 0, sub := none },
        { id := 4, kind := kneg, inputs := [⟨3, 0⟩], outTypes := [t22], stage := 0, attrs := 0, sub := none } ],
    outputs := [⟨4, 0⟩, ⟨2, 0⟩],
    fresh := 5 }

/-- A well-formed input graph on which the pass reaches the
`producer_for_chunk_node.outputs.size() == 1` assertion:
`%1 = add(x, y); %2 = mul(%1, w); a, b = split(%1); %3 = mul(a, b);
return (%2, %3)`.  The first sweep fuses `%2` with `%1`, creating a
two-output fusion group feeding the split; the second sweep's chunk
pattern checks all pass on it (a fusion group is unconditionally
fusable), and the assertion fires. -/
def exAssert : Graph :=
  { inputTypes := [t22, t22, t22],
    nodes :=
      [ { id := 1, kind := kadd, inputs := [⟨0, 0⟩, ⟨0, 1⟩], outTypes := [t22], stage := 0, attrs := 0, sub := none },
        { id := 2, kind := kmul, inputs := [⟨1, 0⟩, ⟨0, 2⟩], outTypes := [t22], stage := 0, attrs := 0, sub := none },
        { id := 3, kind := ksplit, inputs := [⟨1, 0⟩], outTypes := [t12, t12], stage := 0, attrs := 7, sub := none },
        { id := 4, kind := kmul, inputs := [⟨3, 0⟩, ⟨3, 1⟩], outTypes := [t12], stage := 0, attrs := 0, sub := none } ],
    outputs := [⟨2, 0⟩, ⟨4, 0⟩],
    fresh := 5 }

/-- The chunk-distribution scenario:
`t = add(x, y); a, b = split(t); out = mul(a, b); return out`. -/
def exChunk : Graph :=
  { inputTypes := [t22, t22],
    nodes :=
      [ { id := 1, kind := kadd, inputs := [⟨0, 0⟩, ⟨0, 1⟩], outTypes := [t22], stage := 0, attrs := 0, sub := none },
        { id := 2, kind := ksplit, inputs := [⟨1, 0⟩], outTypes := [t12, t12], stage := 0, attrs := 7, sub := none },
        { id := 3, kind := kmul, inputs := [⟨2, 0⟩, ⟨2, 1⟩], outTypes := [t12], stage := 0, attrs := 0, sub := none } ],
    outputs := [⟨3, 0⟩],
    fresh := 4 }

/-- A graph state containing a two-output fusion group whose second output
feeds a split consumed by a single fusable consumer: the chunk pattern
checks of `tryToMoveChunk` all pass, yet the splittee has two outputs.
(The subgraph holds `mul(param0, param1); add(param2, param3)` with the
outer outputs paired to them, as `fuse` produces it.) -/
def exMultiOut : Graph :=
  { inputTypes := [t22, t22, t22],
    nodes :=
      [ { id := 5, kind := kFusionGroup, inputs := [⟨0, 2⟩, ⟨0, 0⟩, ⟨0, 1⟩],
          outTypes := [t22, t22], stage := 0, attrs := 0,
          sub := some
            { inputTypes := [t22, t22, t22],
              nodes :=
                [ { id := 2, kind := kadd, inputs := [⟨0, 1⟩, ⟨0, 2⟩], outTypes := [t22], stage := 0, attrs := 0 },
                  { id := 1, kind := kmul, inputs := [⟨2, 0⟩, ⟨0, 0⟩], outTypes := [t22], stage := 0, attrs := 0 } ],
              outputs := [⟨1, 0⟩, ⟨2, 0⟩],
              fresh := 3 } },
        { id := 3, kind := ksplit, inputs := [⟨5, 1⟩], outTypes := [t12, t12], stage := 0, attrs := 7, sub := none },
        { id := 4, kind := kmul, inputs := [⟨3, 0⟩, ⟨3, 1⟩], outTypes := [t12], stage := 0, attrs := 0, sub := none } ],
    outputs := [⟨5, 0⟩, ⟨4, 0⟩],
    fresh := 6 }

/-- A concrete `fuse` step on `exTwoSweep`: fuse producer `%1` (exp) into
consumer `%2` (tanh). -/
def c1FuseRes : Outcome (Graph × TopoIdx × Nat) :=
  fuse exTwoSweep (initIdx exTwoSweep) 2 ⟨1, 0⟩ 0

/-- The graph produced by the concrete `fuse` step. -/
def c1Graph : Graph :=
  match c1FuseRes with
  | Outcome.ok r => r.1
  | _ => exTwoSweep

/-- The topological index produced by the concrete `fuse` step. -/
def c1Idx : TopoIdx :=
  match c1FuseRes with
  | Outcome.ok r => r.2.1
  | _ => initIdx exTwoSweep

/-- The group id produced by the concrete `fuse` step. -/
def c1Gid : Nat :=
  match c1FuseRes with
  | Outcome.ok r => r.2.2
  | _ => 0

/-- A concrete successful chunk distribution: `tryToMoveChunk` on
`exChunk` with consumer `%3` (mul) and producer `⟨2, 0⟩` (first split
output). -/
def c4Res : Outcome (Graph × TopoIdx × Bool) :=
  tryToMoveChunk exChunk (initIdx exChunk) 3 ⟨2, 0⟩ 0

/-- The graph produced by the concrete chunk distribution. -/
def c4Graph : Graph :=
  match c4Res with
  | Outcome.ok r => r.1
  | _ => exChunk

/-- The topological index produced by the concrete chunk distribution. -/
def c4Idx : TopoIdx :=
  match c4Res with
  | Outcome.ok r => r.2.1
  | _ => initIdx exChunk

/-- Summary of a sweep outcome: the claimed measure of the resulting graph
and whether the sweep reported a change. -/
def sweepSummary : Outcome (Graph × TopoIdx × Bool) → Option (Nat × Bool)
  | .ok (g, _, ch) => some (claimMeasure g, ch)
  | _ => none

/-- The state after the first full sweep of `run` on `exTwoSweep`. -/
def twoSweepFirst : Outcome (Graph × TopoIdx × Bool) :=
  sweep 60 exTwoSweep (initIdx exTwoSweep)

/-- The state after the second full sweep of `run` on `exTwoSweep`. -/
def twoSweepSecond : Outcome (Graph × TopoIdx × Bool) :=
  match twoSweepFirst with
  | .ok (g, i, _) => sweep 60 g i
  | _ => .fuelOut

/-- A `min` node with three inputs: in the `simple_mappable` set, not the
unary reduction form, yet `isSimpleMap` rejects it. -/
def minTernary : Node :=
  { id := 1, kind := kmin, inputs := [⟨0, 0⟩, ⟨0, 1⟩, ⟨0, 2⟩],
    outTypes := [t22], stage := 0, attrs := 0, sub := none }

/-- A graph whose second input value carries no type, feeding an otherwise
float `add`. -/
def exUntyped : Graph :=
  { inputTypes := [t22, none],
    nodes :=
      [ { id := 1, kind := kadd, inputs := [⟨0, 0⟩, ⟨0, 1⟩], outTypes := [t22], stage := 0, attrs := 0, sub := none } ],
    outputs := [⟨1, 0⟩],
    fresh := 2 }

/-- The `add` node of `exUntyped`. -/
def exUntypedNode : Node :=
  { id := 1, kind := kadd, inputs := [⟨0, 0⟩, ⟨0, 1⟩], outTypes := [t22], stage := 0, attrs := 0, sub := none }

/-! ## Theorems -/

@[simp] theorem Outcome.ok_bind {α β : Type} (a : α) (f : α → Outcome β) :
    (Outcome.ok a >>= f) = f a := rfl

@[simp] theorem Outcome.asserted_bind {α β : Type} (f : α → Outcome β) :
    (Outcome.asserted >>= f) = Outcome.asserted := rfl

@[simp] theorem Outcome.fuelOut_bind {α β : Type} (f : α → Outcome β) :
    (Outcome.fuelOut >>= f) = Outcome.fuelOut := rfl

@[simp] theorem Outcome.pure_eq_ok {α : Type} (a : α) :
    (pure a : Outcome α) = Outcome.ok a := rfl

@[simp] theorem Outcome.lift_some {α : Type} (a : α) :
    Outcome.lift (some a) = Outcome.ok a := rfl

@[simp] theorem Outcome.lift_none {α : Type} :
    (Outcome.lift none : Outcome α) = Outcome.asserted := rfl

/-- Inversion for a successful bind. -/
theorem Outcome.bind_eq_ok {α β : Type} {x : Outcome α} {f : α → Outcome β} {b : β} :
    (x >>= f) = Outcome.ok b ↔ ∃ a, x = Outcome.ok a ∧ f a = Outcome.ok b := by
  cases x with
  | ok a =>
    simp only [Outcome.ok_bind]
    constructor
    · intro h; exact ⟨a, rfl, h⟩
    · rintro ⟨a', ha, hf⟩
      cases ha
      exact hf
  | asserted => simp
  | fuelOut => simp

/-- Inversion for a successful lift. -/
theorem Outcome.lift_eq_ok {α : Type} {o : Option α} {a : α} :
    Outcome.lift o = Outcome.ok a ↔ o = some a := by
  cases o with
  | none => simp
  | some b =>
    simp only [Outcome.lift_some]
    constructor
    · intro h; injection h with h; rw [h]
    · intro h; injection h with h; rw [h]

/-- C1 (counterexample): a change need not strictly decrease the count of
non-group simple-map nodes plus eligible chunk patterns.  On the
well-formed graph `exTwoSweep` (the example in `run()`'s own comment), the
first sweep ends with the measure already at 0, and the second sweep still
performs a change (the merge of the two fusion groups) with the measure 0
before and after it — impossible if every change strictly decreased a
quantity bounded below by zero. -/
theorem C1_counterexample :
    wellFormedInput exTwoSweep = true
    ∧ sweepSummary twoSweepFirst = some (0, true)
    ∧ sweepSummary twoSweepSecond = some (0, true) := by
  exact ⟨by decide, by decide, by decide⟩

/-- C5 (counterexample): the claim's characterisation — membership in the
closed set with only the arity-1 `min`/`max` exception — says `isSimpleMap`
holds of a ternary `min`; the code returns false (it demands exactly two
inputs for `min`/`max`). -/
theorem C5_counterexample :
    minTernary.kind ∈ simple_mappable
    ∧ ¬ (minTernary.inputs.length = 1)
    ∧ isSimpleMap minTernary = false := by
  exact ⟨by decide, by decide, by decide⟩

/-- C5 (amended): `isSimpleMap n` is true iff `n`'s kind is in the closed
simple-map set, except that `min` and `max` return true only with exactly
two inputs (the arity-1 form is a reduction; every other arity is likewise
rejected). -/
theorem C5_isSimpleMap_iff (n : Node) :
    isSimpleMap n = true ↔
      (n.kind ∈ simple_mappable
        ∧ ((n.kind = kmin ∨ n.kind = kmax) → n.inputs.length = 2)) := by
  unfold isSimpleMap
  by_cases hmem : n.kind ∈ simple_mappable
  · have hc : simple_mappable.contains n.kind = true := by
      simpa [List.elem_iff] using hmem
    rw [if_pos hc]
    by_cases hmm : n.kind = kmin ∨ n.kind = kmax
    · rw [if_pos hmm]
      simp [hmem, hmm]
    · rw [if_neg hmm]
      simp [hmem, hmm]
  · have hc : ¬ simple_mappable.contains n.kind = true := by
      simpa [List.elem_iff] using hmem
    rw [if_neg hc]
    simp [hmem]

/-- C8 (code bug): `FuseGraph` on the well-formed input `exAssert` reaches
the `producer_for_chunk_node.outputs.size() == 1` assertion of
`tryToMoveChunk`: the first sweep fuses `%2` with `%1` into a two-output
fusion group; the split now reads a fusion-group output, every chunk
pattern check passes (`isFusable` is unconditionally true on groups), and
the splittee has two outputs. -/
theorem C8_assertion_fires :
    wellFormedInput exAssert = true
    ∧ FuseGraph 60 exAssert = Outcome.asserted := by
  exact ⟨by decide, by decide⟩

/-- A simple-map node only has kinds from the closed set. -/
theorem isSimpleMap_mem {n : Node} (h : isSimpleMap n = true) :
    n.kind ∈ simple_mappable := by
  unfold isSimpleMap at h
  by_cases hc : simple_mappable.contains n.kind = true
  · exact List.elem_iff.mp hc
  · rw [if_neg hc] at h
    exact absurd h (by simp)

/-- C3: `shouldFuse(consumer, p)` returns true iff `p`'s producing node is
fusable and every use `u` of `p` satisfies `u.user = consumer` or `u.user`
does not occur strictly before the consumer in the topological index
(rejection happens exactly when some other user sits strictly before the
consumer). -/
theorem C3_shouldFuse_iff (g : Graph) (idx : TopoIdx) (c : Nat) (p : ValueRef)
    (pn : Node) (hpn : nodeOf g p.node = some pn) :
    shouldFuse g idx c p = some true ↔
      (isFusable g pn = some true
        ∧ ∀ u ∈ usesOf g p,
            u = User.node c ∨ ¬ (idx.lookupNode c > idx.lookupUser u)) := by
  unfold shouldFuse
  rw [hpn]
  cases hf : isFusable g pn with
  | none =>
    simp only [Option.bind_eq_bind, Option.some_bind, hf, Option.none_bind]
    constructor
    · intro h; cases h
    · intro h; cases h.1
  | some b =>
    simp only [Option.bind_eq_bind, Option.some_bind, hf]
    constructor
    · intro h
      have hb : (b && allUsersAreThisConsumerOrOccurAfterIt g idx c p) = true :=
        Option.some.inj h
      have hb1 : b = true := Bool.and_elim_left hb
      have hb2 : allUsersAreThisConsumerOrOccurAfterIt g idx c p = true :=
        Bool.and_elim_right hb
      subst hb1
      refine ⟨rfl, ?_⟩
      intro u hu
      have := (List.all_eq_true.mp hb2) u hu
      rcases Bool.or_eq_true_iff.mp this with h1 | h1
      · exact Or.inl (of_decide_eq_true h1)
      · exact Or.inr (of_decide_eq_false (by revert h1; cases decide (idx.lookupNode c > idx.lookupUser u) <;> simp))
    · rintro ⟨hb, hall⟩
      have hb1 : b = true := Option.some.inj hb
      subst hb1
      have : allUsersAreThisConsumerOrOccurAfterIt g idx c p = true := by
        apply List.all_eq_true.mpr
        intro u hu
        rcases hall u hu with h1 | h1
        · exact Bool.or_eq_true_iff.mpr (Or.inl (decide_eq_true h1))
        · exact Bool.or_eq_true_iff.mpr (Or.inr (by rw [decide_eq_false h1]; rfl))
      rw [this]
      rfl

/-- C3 witness: in `exTwoSweep`, the consumer `neg` (node 4) and the
producer `sigmoid`'s output: fusable, sole use by node 4, so `shouldFuse`
is true. -/
theorem C3_witness :
    shouldFuse exTwoSweep (initIdx exTwoSweep) 4 ⟨3, 0⟩ = some true ↔
      (isFusable exTwoSweep
          { id := 3, kind := ksigmoid, inputs := [⟨1, 0⟩], outTypes := [t22],
            stage := 0, attrs := 0, sub := none } = some true
        ∧ ∀ u ∈ usesOf exTwoSweep ⟨3, 0⟩,
            u = User.node 4
              ∨ ¬ ((initIdx exTwoSweep).lookupNode 4 > (initIdx exTwoSweep).lookupUser u)) :=
  C3_shouldFuse_iff exTwoSweep (initIdx exTwoSweep) 4 ⟨3, 0⟩ _ (by decide)

/-- C10: a simple-map node with an input or output value that has no type
or a non-tensor type is rejected by `isFusable` with the value
`some false` — in particular no exception escapes, because the failing
`allFloatIO` short-circuits the conjunction before `isCuda` (which throws
on missing / non-tensor types) is evaluated. -/
theorem C10_untyped_not_fusable (g : Graph) (n : Node)
    (hsm : isSimpleMap n = true)
    (hbad : ∃ t ∈ n.outTypes ++ n.inputs.map (typeOfValue g), expectTensor t = none) :
    isFusable g n = some false := by
  have hng : n.kind ≠ kFusionGroup := by
    intro h
    have := isSimpleMap_mem hsm
    rw [h] at this
    exact absurd this (by decide)
  have hfloat : allFloatInputsOutputs g n = false := by
    rcases hbad with ⟨t, ht, hnone⟩
    have htf : hasFloatType t = false := by
      unfold hasFloatType
      unfold expectTensor at hnone
      match t with
      | none => rfl
      | some Ty.other => rfl
      | some (Ty.tensor tt) => exact absurd hnone (by simp)
    unfold allFloatInputsOutputs
    rcases List.mem_append.mp ht with hin | hin
    · have : ¬ n.outTypes.all hasFloatType = true := by
        intro hall
        have := List.all_eq_true.mp hall t hin
        rw [htf] at this
        cases this
      simp only [Bool.and_eq_false_iff]
      left
      exact Bool.not_eq_true _ |>.mp this
    · rcases List.mem_map.mp hin with ⟨v, hv, hvt⟩
      have : ¬ n.inputs.all (fun i => hasFloatType (typeOfValue g i)) = true := by
        intro hall
        have := List.all_eq_true.mp hall v hv
        rw [hvt, htf] at this
        cases this
      simp only [Bool.and_eq_false_iff]
      right
      exact Bool.not_eq_true _ |>.mp this
  unfold isFusable
  rw [if_neg hng, if_pos hsm, if_neg (by rw [hfloat]; exact Bool.false_ne_true)]

/-- C10 witness: the `add` of `exUntyped` (untyped second operand) is
rejected with `some false`. -/
theorem C10_witness :
    isFusable exUntyped exUntypedNode = some false :=
  C10_untyped_not_fusable exUntyped exUntypedNode (by decide)
    ⟨none, by decide, by decide⟩

/-- C9: whenever `tryToMoveChunk` answers `false` the graph (and the
topological index) are returned entirely unchanged — all pattern checks
precede any node creation, rerouting or destruction. -/
theorem C9_false_unchanged (g : Graph) (idx : TopoIdx) (c : Nat) (p : ValueRef)
    (amb : Nat) (g' : Graph) (idx' : TopoIdx)
    (h : tryToMoveChunk g idx c p amb = Outcome.ok (g', idx', false)) :
    g' = g ∧ idx' = idx := by
  unfold tryToMoveChunk at h
  rcases Outcome.bind_eq_ok.mp h with ⟨chunk, _, h⟩
  split at h
  · rw [Outcome.pure_eq_ok] at h
    injection h with h
    injection h with h1 h
    injection h with h2 h3
    exact ⟨h1.symm, h2.symm⟩
  · rcases Outcome.bind_eq_ok.mp h with ⟨pc, _, h⟩
    rcases Outcome.bind_eq_ok.mp h with ⟨pcn, _, h⟩
    rcases Outcome.bind_eq_ok.mp h with ⟨fus, _, h⟩
    split at h
    · rw [Outcome.pure_eq_ok] at h
      injection h with h
      injection h with h1 h
      injection h with h2 h3
      exact ⟨h1.symm, h2.symm⟩
    · split at h
      · rw [Outcome.pure_eq_ok] at h
        injection h with h
        injection h with h1 h
        injection h with h2 h3
        exact ⟨h1.symm, h2.symm⟩
      · rcases Outcome.bind_eq_ok.mp h with ⟨u, _, h⟩
        rcases Outcome.bind_eq_ok.mp h with ⟨⟨g1, idx1, sids, ip⟩, _, h⟩
        rcases Outcome.bind_eq_ok.mp h with ⟨⟨g2, idx2, ip2⟩, _, h⟩
        simp at h

/-- C9 witness: the producer of `neg` in `exTwoSweep` is not a split, so
`tryToMoveChunk` declines and returns the graph and index unchanged. -/
theorem C9_witness :
    FuseGraph 0 exTwoSweep = FuseGraph 0 exTwoSweep ∧ initIdx exTwoSweep = initIdx exTwoSweep := by
  have h := C9_false_unchanged exTwoSweep (initIdx exTwoSweep) 4 ⟨3, 0⟩ 0
    exTwoSweep (initIdx exTwoSweep) (by decide)
  exact ⟨rfl, h.2 ▸ rfl⟩

/-- C6: the producer loop of `scanNode` acts (chunk move or fusion) only
on a producer value whose stage — the stage of its producing node — equals
the consumer's stage (`amb`, bound to `consumer->stage()` by the
`setStageTemporary` guard); producers in another stage are skipped, so
every node absorbed into a fusion group shares the stage of the consumer
that seeded the group. -/
theorem C6_no_cross_stage (g : Graph) (idx : TopoIdx) (c amb : Nat)
    (ps : List ValueRef) (p : ValueRef) (rest : Graph × TopoIdx × Nat)
    (h : scanProducers g idx c amb ps = Outcome.ok (some (p, rest))) :
    stageOfValue g p = some amb := by
  induction ps with
  | nil =>
    unfold scanProducers at h
    rw [Outcome.pure_eq_ok] at h
    injection h with h
    cases h
  | cons q qs ih =>
    unfold scanProducers at h
    rcases Outcome.bind_eq_ok.mp h with ⟨pstage, hst, h⟩
    have hst' : stageOfValue g q = some pstage := Outcome.lift_eq_ok.mp hst
    split at h
    · exact ih h
    · rename_i hside
      have hpq : pstage = amb := by
        by_contra hne
        exact hside hne
      rcases Outcome.bind_eq_ok.mp h with ⟨⟨g1, idx1, moved⟩, hmv, h⟩
      dsimp only at h
      split at h
      · rw [Outcome.pure_eq_ok] at h
        injection h with h
        injection h with h1
        injection h1 with h2 h3
        rw [← h2, hst', hpq]
      · rcases Outcome.bind_eq_ok.mp h with ⟨sf, hsf, h⟩
        split at h
        · rcases Outcome.bind_eq_ok.mp h with ⟨⟨g2, idx2, gid⟩, hfu, h⟩
          dsimp only at h
          rw [Outcome.pure_eq_ok] at h
          injection h with h
          injection h with h1
          injection h1 with h2 h3
          rw [← h2, hst', hpq]
        · exact ih h

/-! ## Surgery lemmas: node lookup, update, destruction, insertion -/

/-- Success of a `JIT_ASSERT`. -/
theorem jassert_eq_ok {b : Bool} {u : Unit} : jassert b = Outcome.ok u ↔ b = true := by
  cases b with
  | true => simp [jassert]
  | false => simp [jassert]

/-- A successful `find?` by id splits the list at the found node. -/
theorem find_id_decomp {l : List Node} {id : Nat} {n : Node}
    (h : l.find? (fun m => decide (m.id = id)) = some n) :
    n.id = id ∧ ∃ l1 l2, l = l1 ++ n :: l2 ∧ ∀ m ∈ l1, ¬ m.id = id := by
  induction l with
  | nil => cases h
  | cons a t ih =>
    by_cases ha : a.id = id
    · have hpa : (fun m : Node => decide (m.id = id)) a = true := decide_eq_true ha
      rw [List.find?_cons_of_pos t hpa] at h
      injection h with h
      subst h
      exact ⟨ha, [], t, rfl, fun m hm => absurd hm (List.not_mem_nil m)⟩
    · have hpa : ¬ (fun m : Node => decide (m.id = id)) a = true := by simpa using ha
      rw [List.find?_cons_of_neg t hpa] at h
      rcases ih h with ⟨hid, l1, l2, hdec, hl1⟩
      refine ⟨hid, a :: l1, l2, by rw [hdec]; rfl, ?_⟩
      intro m hm
      rcases List.mem_cons.mp hm with hm | hm
      · rw [hm]; exact ha
      · exact hl1 m hm

/-- With unique ids, a successful `nodeOf` splits the node list at the
unique node carrying the id. -/
theorem nodeOf_decomp {g : Graph} {id : Nat} {n : Node}
    (hu : uniqueIds g) (h0 : ¬ id = 0) (h : nodeOf g id = some n) :
    n.id = id ∧ ∃ l1 l2, g.nodes = l1 ++ n :: l2
      ∧ (∀ m ∈ l1, ¬ m.id = id) ∧ (∀ m ∈ l2, ¬ m.id = id) := by
  unfold nodeOf at h
  rw [if_neg h0] at h
  rcases find_id_decomp h with ⟨hid, l1, l2, hdec, hl1⟩
  refine ⟨hid, l1, l2, hdec, hl1, ?_⟩
  intro m hm hmid
  have hnd := hu
  unfold uniqueIds uniqueIdsL at hnd
  rw [hdec, List.map_append, List.map_cons] at hnd
  have h3 := hnd.of_append_right
  have h4 : n.id ∉ l2.map (fun n => n.id) := (List.nodup_cons.mp h3).1
  exact h4 (by
    rw [hid, ← hmid]
    exact List.mem_map_of_mem (fun n => n.id) hm)

/-- Mapping an update over nodes that do not carry the id is a no-op. -/
theorem map_untouched {l : List Node} {id : Nat} {f : Node → Node}
    (h : ∀ m ∈ l, ¬ m.id = id) :
    l.map (fun m => if m.id = id then f m else m) = l := by
  induction l with
  | nil => rfl
  | cons a t ih =>
    rw [List.map_cons, if_neg (h a (List.mem_cons_self a t)),
      ih (fun m hm => h m (List.mem_cons_of_mem a hm))]

/-- `updateNode` rewrites exactly the node at the split point. -/
theorem updateNode_decomp {g : Graph} {id : Nat} {f : Node → Node} {n : Node}
    {l1 l2 : List Node}
    (hdec : g.nodes = l1 ++ n :: l2) (hn : n.id = id)
    (hl1 : ∀ m ∈ l1, ¬ m.id = id) (hl2 : ∀ m ∈ l2, ¬ m.id = id) :
    (updateNode g id f).nodes = l1 ++ f n :: l2 := by
  unfold updateNode
  rw [hdec, List.map_append, List.map_cons, map_untouched hl1, map_untouched hl2,
    if_pos hn]

/-- `destroy` removes exactly the node at the split point. -/
theorem destroy_decomp {g : Graph} {id : Nat} {n : Node} {l1 l2 : List Node}
    (hdec : g.nodes = l1 ++ n :: l2) (hn : n.id = id)
    (hl1 : ∀ m ∈ l1, ¬ m.id = id) :
    (destroy g id).nodes = l1 ++ l2 := by
  show List.eraseP (fun m => decide (m.id = id)) g.nodes = l1 ++ l2
  rw [hdec, List.eraseP_append_right _ (fun b hb => by simpa using hl1 b hb)]
  have hcons : List.eraseP (fun m : Node => decide (m.id = id)) (n :: l2) = l2 := by
    simp [List.eraseP_cons, hn]
  rw [hcons]

/-- Ids of an id-preserving node map. -/
theorem map_ids_of_idpres {l : List Node} {f : Node → Node}
    (h : ∀ n, (f n).id = n.id) :
    (l.map f).map (fun n => n.id) = l.map (fun n => n.id) := by
  induction l with
  | nil => rfl
  | cons a t ih =>
    simp only [List.map_cons]
    rw [h a, ih]

/-- `insertBeforeId` is a permutation of consing the new node. -/
theorem insertBeforeId_perm (l : List Node) (t : Nat) (n : Node) :
    List.Perm (insertBeforeId l t n) (n :: l) := by
  induction l with
  | nil => exact List.Perm.refl _
  | cons m rest ih =>
    unfold insertBeforeId
    by_cases hm : m.id = t
    · rw [if_pos hm]
    · rw [if_neg hm]
      exact (ih.cons m).trans (List.Perm.swap n m rest)

/-- `insertAfterId` is a permutation of consing the new node. -/
theorem insertAfterId_perm (l : List Node) (t : Nat) (n : Node) :
    List.Perm (insertAfterId l t n) (n :: l) := by
  induction l with
  | nil => exact List.Perm.refl _
  | cons m rest ih =>
    unfold insertAfterId
    by_cases hm : m.id = t
    · rw [if_pos hm]
      exact List.Perm.swap n m rest
    · rw [if_neg hm]
      exact (ih.cons m).trans (List.Perm.swap n m rest)

/-- `find?` by id commutes with an id-preserving map. -/
theorem find_id_map {l : List Node} {φ : Node → Node}
    (hid : ∀ n, (φ n).id = n.id) (j : Nat) :
    (l.map φ).find? (fun n => decide (n.id = j))
      = (l.find? (fun n => decide (n.id = j))).map φ := by
  induction l with
  | nil => rfl
  | cons a t ih =>
    by_cases ha : a.id = j
    · have h1 : (fun n : Node => decide (n.id = j)) (φ a) = true := by simp [hid, ha]
      have h2 : (fun n : Node => decide (n.id = j)) a = true := by simp [ha]
      rw [List.map_cons, List.find?_cons_of_pos (t.map φ) h1, List.find?_cons_of_pos t h2]
      rfl
    · have h1 : ¬ (fun n : Node => decide (n.id = j)) (φ a) = true := by simp [hid, ha]
      have h2 : ¬ (fun n : Node => decide (n.id = j)) a = true := by simp [ha]
      rw [List.map_cons, List.find?_cons_of_neg (t.map φ) h1, List.find?_cons_of_neg t h2, ih]

/-! ## Preservation of the id discipline -/

theorem uniqueIdsL_map {l : List Node} {φ : Node → Node}
    (hφ : ∀ n, (φ n).id = n.id) (hu : uniqueIdsL l) : uniqueIdsL (l.map φ) := by
  unfold uniqueIdsL at hu ⊢
  rw [map_ids_of_idpres hφ]
  exact hu

theorem wfIds_updateNode {g : Graph} {id : Nat} {f : Node → Node}
    (hf : ∀ n, (f n).id = n.id) (hw : wfIds g) : wfIds (updateNode g id f) := by
  rcases hw with ⟨hu, hb⟩
  refine ⟨?_, ?_⟩
  · exact uniqueIdsL_map (fun n => by by_cases h : n.id = id <;> simp [h, hf n]) hu
  · intro n hn
    rcases List.mem_map.mp hn with ⟨m, hm, rfl⟩
    show (if m.id = id then f m else m).id < g.fresh
    by_cases h : m.id = id
    · rw [if_pos h, hf m]; exact hb m hm
    · rw [if_neg h]; exact hb m hm

theorem wfIds_replaceAll {g : Graph} {v w : ValueRef}
    (hw : wfIds g) : wfIds (replaceAllUsesWith g v w) := by
  rcases hw with ⟨hu, hb⟩
  refine ⟨?_, ?_⟩
  · exact uniqueIdsL_map (fun n => rfl) hu
  · intro n hn
    rcases List.mem_map.mp hn with ⟨m, hm, rfl⟩
    show m.id < g.fresh
    exact hb m hm

theorem wfIds_destroy {g : Graph} {id : Nat} (hw : wfIds g) : wfIds (destroy g id) := by
  rcases hw with ⟨hu, hb⟩
  refine ⟨?_, ?_⟩
  · exact hu.sublist ((List.eraseP_sublist _).map _)
  · intro n hn
    exact hb n ((List.eraseP_sublist _).subset hn)

/-- Inserting a node with the fresh id before a target preserves the id
discipline when the fresh counter is bumped. -/
theorem wfIds_insertBefore {g : Graph} {t : Nat} {n : Node}
    (hw : wfIds g) (hid : n.id = g.fresh) :
    wfIds { g with nodes := insertBeforeId g.nodes t n, fresh := g.fresh + 1 } := by
  rcases hw with ⟨hu, hb⟩
  refine ⟨?_, ?_⟩
  · show uniqueIdsL (insertBeforeId g.nodes t n)
    unfold uniqueIdsL
    rw [((insertBeforeId_perm g.nodes t n).map (fun n => n.id)).nodup_iff,
      List.map_cons, List.nodup_cons]
    refine ⟨?_, hu⟩
    intro hmem
    rcases List.mem_map.mp hmem with ⟨m, hm, hmid⟩
    have := hb m hm
    omega
  · intro m hm
    have hmem := (insertBeforeId_perm g.nodes t n).subset hm
    show m.id < g.fresh + 1
    rcases List.mem_cons.mp hmem with h | h
    · rw [h, hid]; omega
    · have := hb m h; omega

/-- Same for insertion after a target. -/
theorem wfIds_insertAfter {g : Graph} {t : Nat} {n : Node}
    (hw : wfIds g) (hid : n.id = g.fresh) :
    wfIds { g with nodes := insertAfterId g.nodes t n, fresh := g.fresh + 1 } := by
  rcases hw with ⟨hu, hb⟩
  refine ⟨?_, ?_⟩
  · show uniqueIdsL (insertAfterId g.nodes t n)
    unfold uniqueIdsL
    rw [((insertAfterId_perm g.nodes t n).map (fun n => n.id)).nodup_iff,
      List.map_cons, List.nodup_cons]
    refine ⟨?_, hu⟩
    intro hmem
    rcases List.mem_map.mp hmem with ⟨m, hm, hmid⟩
    have := hb m hm
    omega
  · intro m hm
    have hmem := (insertAfterId_perm g.nodes t n).subset hm
    show m.id < g.fresh + 1
    rcases List.mem_cons.mp hmem with h | h
    · rw [h, hid]; omega
    · have := hb m h; omega

/-! ## Preservation of the paired-count invariant -/

/-- A node whose inputs are rewritten one-for-one stays balanced. -/
theorem balancedNode_inputsMap {n : Node} {σ : ValueRef → ValueRef}
    (h : balancedNode n) :
    balancedNode { n with inputs := n.inputs.map σ } := by
  cases n with
  | mk id kind inputs outTypes stage attrs sub =>
    unfold balancedNode at h ⊢
    dsimp at h ⊢
    cases sub with
    | none => intro hk; exact trivial
    | some s =>
      intro hk
      have h2 := h hk
      simpa using h2

theorem balanced_replaceAll {g : Graph} {v w : ValueRef}
    (hb : balanced g) : balanced (replaceAllUsesWith g v w) := by
  intro n hn
  rcases List.mem_map.mp hn with ⟨m, hm, rfl⟩
  exact balancedNode_inputsMap (hb m hm)

theorem balanced_updateNode_pointwise {g : Graph} {id : Nat} {f : Node → Node}
    (hf : ∀ nd, balancedNode nd → balancedNode (f nd))
    (hb : balanced g) : balanced (updateNode g id f) := by
  intro n hn
  rcases List.mem_map.mp hn with ⟨m, hm, rfl⟩
  by_cases h : m.id = id
  · rw [if_pos h]; exact hf m (hb m hm)
  · rw [if_neg h]; exact hb m hm

theorem balanced_destroy {g : Graph} {id : Nat}
    (hb : balanced g) : balanced (destroy g id) := by
  intro n hn
  exact hb n ((List.eraseP_sublist _).subset hn)

theorem balancedL_insertBefore {l : List Node} {t : Nat} {n : Node}
    (hl : balancedL l) (hn : balancedNode n) :
    balancedL (insertBeforeId l t n) := by
  intro m hm
  rcases List.mem_cons.mp ((insertBeforeId_perm l t n).subset hm) with h | h
  · rw [h]; exact hn
  · exact hl m h

theorem balancedL_insertAfter {l : List Node} {t : Nat} {n : Node}
    (hl : balancedL l) (hn : balancedNode n) :
    balancedL (insertAfterId l t n) := by
  intro m hm
  rcases List.mem_cons.mp ((insertAfterId_perm l t n).subset hm) with h | h
  · rw [h]; exact hn
  · exact hl m h

/-! ## Characterisation of `mergeNodeIntoGroup` -/

theorem posOf_lt_length {v : ValueRef} :
    ∀ {l : List ValueRef} {i : Nat}, posOf v l = some i → i < l.length := by
  intro l
  induction l with
  | nil => intro i h; cases h
  | cons w ws ih =>
    intro i h
    unfold posOf at h
    by_cases hw : w = v
    · rw [if_pos hw] at h
      injection h with h
      rw [← h, List.length_cons]
      omega
    · rw [if_neg hw] at h
      rcases Option.map_eq_some'.mp h with ⟨j, hj, hji⟩
      have := ih hj
      rw [← hji, List.length_cons]
      omega

theorem addInputs_len (g : Graph) :
    ∀ (l : List ValueRef) (st : SubGraph × List ValueRef × List (ValueRef × ValueRef)),
      st.1.inputTypes.length = st.2.1.length →
      (l.foldl (addInputsStep g) st).1.inputTypes.length
        = (l.foldl (addInputsStep g) st).2.1.length := by
  intro l
  induction l with
  | nil => intro st h; exact h
  | cons a t ih =>
    intro st h
    rw [List.foldl_cons]
    apply ih
    rcases st with ⟨s, gin, m⟩
    unfold addInputsStep
    dsimp only
    split
    · exact h
    · dsimp only
      rw [List.length_append, List.length_append]
      dsimp at h
      rw [h]
      rfl

theorem addInputs_outputs (g : Graph) :
    ∀ (l : List ValueRef) (st : SubGraph × List ValueRef × List (ValueRef × ValueRef)),
      (l.foldl (addInputsStep g) st).1.outputs = st.1.outputs := by
  intro l
  induction l with
  | nil => intro st; rfl
  | cons a t ih =>
    intro st
    rw [List.foldl_cons, ih]
    rcases st with ⟨s, gin, m⟩
    unfold addInputsStep
    dsimp only
    split
    · rfl
    · rfl

/-- Everything a successful `mergeNodeIntoGroup` tells us: it rewrites the
(kFusionGroup) target node in place, preserving its id, kind and outer
output list, and leaves it with equal outer-input / subgraph-input counts
and an unchanged subgraph-output count. -/
theorem mergeNodeIntoGroup_ok_elim {g : Graph} {gid nid amb : Nat} {g' : Graph} {cid : Nat}
    (h : mergeNodeIntoGroup g gid nid amb = Outcome.ok (g', cid)) :
    ∃ grp sub, nodeOf g gid = some grp ∧ grp.kind = kFusionGroup ∧ grp.sub = some sub
      ∧ ∃ f : Node → Node,
          g' = updateNode g gid f
          ∧ (∀ nd, (f nd).id = nd.id)
          ∧ (∀ nd, (f nd).kind = nd.kind)
          ∧ (∀ nd, (f nd).outTypes = nd.outTypes)
          ∧ ∃ sub', (∀ nd, (f nd).sub = some sub')
              ∧ (∀ nd, (f nd).inputs.length = sub'.inputTypes.length)
              ∧ sub'.outputs.length = sub.outputs.length := by
  unfold mergeNodeIntoGroup at h
  rcases Outcome.bind_eq_ok.mp h with ⟨n, hn, h⟩
  rcases Outcome.bind_eq_ok.mp h with ⟨u1, hu1, h⟩
  rcases Outcome.bind_eq_ok.mp h with ⟨grp, hgrp, h⟩
  rcases Outcome.bind_eq_ok.mp h with ⟨u2, hu2, h⟩
  have hk : grp.kind = kFusionGroup := of_decide_eq_true (jassert_eq_ok.mp hu2)
  rcases Outcome.bind_eq_ok.mp h with ⟨sub, hsub, h⟩
  have hsub' : grp.sub = some sub := Outcome.lift_eq_ok.mp hsub
  rcases Outcome.bind_eq_ok.mp h with ⟨u3, hu3, h⟩
  have hlen : grp.inputs.length = sub.inputTypes.length :=
    of_decide_eq_true (jassert_eq_ok.mp hu3)
  refine ⟨grp, sub, Outcome.lift_eq_ok.mp hgrp, hk, hsub', ?_⟩
  dsimp only at h
  rcases hst : n.inputs.foldl (addInputsStep g)
      (sub, grp.inputs, grp.inputs.enum.map (fun e => (e.2, ⟨0, e.1⟩)))
    with ⟨sub1, gin1, m1⟩
  rw [hst] at h
  dsimp only at h
  rcases Outcome.bind_eq_ok.mp h with ⟨cin, hcin, h⟩
  rcases Outcome.bind_eq_ok.mp h with ⟨u4, hu4, h⟩
  have hg1 : sub1.inputTypes.length = gin1.length := by
    have := addInputs_len g n.inputs
      (sub, grp.inputs, grp.inputs.enum.map (fun e => (e.2, ⟨0, e.1⟩))) hlen.symm
    rw [hst] at this
    exact this
  have hgo : sub1.outputs = sub.outputs := by
    have := addInputs_outputs g n.inputs
      (sub, grp.inputs, grp.inputs.enum.map (fun e => (e.2, ⟨0, e.1⟩)))
    rw [hst] at this
    exact this
  cases hpos : posOf ⟨nid, 0⟩ gin1 with
  | none =>
    rw [hpos] at h
    rw [Outcome.pure_eq_ok] at h
    injection h with h
    injection h with h1 h2
    refine ⟨_, h1.symm, fun nd => rfl, fun nd => rfl, fun nd => rfl,
      { sub1 with
          nodes := { id := sub1.fresh, kind := n.kind, inputs := cin, outTypes := n.outTypes,
                     stage := amb, attrs := n.attrs } :: sub1.nodes,
          fresh := sub1.fresh + 1 },
      fun nd => rfl, fun nd => ?_, ?_⟩
    · dsimp
      rw [hg1]
    · dsimp
      rw [hgo]
  | some p =>
    rw [hpos] at h
    rw [Outcome.pure_eq_ok] at h
    injection h with h
    injection h with h1 h2
    have hplt : p < gin1.length := posOf_lt_length hpos
    refine ⟨_, h1.symm, fun nd => rfl, fun nd => rfl, fun nd => rfl,
      eraseParamRedirect
        { sub1 with
            nodes := { id := sub1.fresh, kind := n.kind, inputs := cin, outTypes := n.outTypes,
                       stage := amb, attrs := n.attrs } :: sub1.nodes,
            fresh := sub1.fresh + 1 } p ⟨sub1.fresh, 0⟩,
      fun nd => rfl, fun nd => ?_, ?_⟩
    · unfold eraseParamRedirect
      dsimp
      rw [List.length_eraseIdx, List.length_eraseIdx, hg1]
    · unfold eraseParamRedirect
      dsimp
      rw [List.length_map, hgo]

/-! ## Counting simple-map nodes -/

/-- `isSimpleMap` only looks at the kind and the number of inputs. -/
theorem isSimpleMap_congr {a b : Node}
    (hk : b.kind = a.kind) (hl : b.inputs.length = a.inputs.length) :
    isSimpleMap b = isSimpleMap a := by
  unfold isSimpleMap
  rw [hk, hl]

/-- Fusion groups are never simple maps. -/
theorem isSimpleMap_group {n : Node} (h : n.kind = kFusionGroup) :
    isSimpleMap n = false := by
  unfold isSimpleMap
  rw [h]
  rfl

theorem countSM_append (l1 l2 : List Node) :
    ((l1 ++ l2).filter isSimpleMap).length
      = (l1.filter isSimpleMap).length + (l2.filter isSimpleMap).length := by
  rw [List.filter_append, List.length_append]

theorem countSM_cons (a : Node) (l : List Node) :
    ((a :: l).filter isSimpleMap).length
      = (if isSimpleMap a then 1 else 0) + (l.filter isSimpleMap).length := by
  rw [List.filter_cons]
  by_cases h : isSimpleMap a
  · rw [if_pos h, if_pos h, List.length_cons]
    omega
  · rw [if_neg h, if_neg h]
    omega

theorem countSM_map_pres {l : List Node} {φ : Node → Node}
    (h : ∀ n, isSimpleMap (φ n) = isSimpleMap n) :
    ((l.map φ).filter isSimpleMap).length = (l.filter isSimpleMap).length := by
  induction l with
  | nil => rfl
  | cons a t ih =>
    rw [List.map_cons, countSM_cons, countSM_cons, h a, ih]

theorem countSM_perm {l l' : List Node} (h : List.Perm l l') :
    (l.filter isSimpleMap).length = (l'.filter isSimpleMap).length :=
  (h.filter isSimpleMap).length_eq

theorem count_replaceAll (g : Graph) (v w : ValueRef) :
    simpleMapCount (replaceAllUsesWith g v w) = simpleMapCount g := by
  unfold simpleMapCount replaceAllUsesWith
  exact countSM_map_pres (fun n =>
    isSimpleMap_congr rfl (by dsimp; rw [List.length_map]))

theorem count_updateNode_pointwise {g : Graph} {id : Nat} {f : Node → Node}
    (hf : ∀ nd, isSimpleMap (f nd) = isSimpleMap nd) :
    simpleMapCount (updateNode g id f) = simpleMapCount g := by
  unfold simpleMapCount updateNode
  exact countSM_map_pres (fun n => by
    by_cases h : n.id = id
    · rw [if_pos h]; exact hf n
    · rw [if_neg h])

theorem count_updateNode_group {g : Graph} {gid : Nat} {grp : Node} {f : Node → Node}
    (hw : wfIds g) (hgrp : nodeOf g gid = some grp) (hk : grp.kind = kFusionGroup)
    (hfk : ∀ nd, (f nd).kind = nd.kind) :
    simpleMapCount (updateNode g gid f) = simpleMapCount g := by
  have h0 : ¬ gid = 0 := by
    intro h0
    rw [h0] at hgrp
    unfold nodeOf at hgrp
    rw [if_pos rfl] at hgrp
    injection hgrp with e
    rw [← e] at hk
    simp [paramNode] at hk
  rcases nodeOf_decomp hw.1 h0 hgrp with ⟨hid, l1, l2, hdec, hl1, hl2⟩
  unfold simpleMapCount
  rw [updateNode_decomp hdec hid hl1 hl2, hdec, countSM_append, countSM_append,
    countSM_cons, countSM_cons, isSimpleMap_group ((hfk grp).trans hk),
    isSimpleMap_group hk]

theorem count_destroy {g : Graph} {id : Nat} {n : Node}
    (hw : wfIds g) (h0 : ¬ id = 0) (hn : nodeOf g id = some n) :
    simpleMapCount (destroy g id) + (if isSimpleMap n then 1 else 0) = simpleMapCount g := by
  rcases nodeOf_decomp hw.1 h0 hn with ⟨hid, l1, l2, hdec, hl1, hl2⟩
  unfold simpleMapCount
  rw [destroy_decomp hdec hid hl1, hdec, countSM_append, countSM_append, countSM_cons]
  omega

theorem count_insert_group {g : Graph} {t : Nat} {n : Node} {fr : Nat}
    (hk : isSimpleMap n = false) :
    simpleMapCount { g with nodes := insertBeforeId g.nodes t n, fresh := fr }
      = simpleMapCount g := by
  unfold simpleMapCount
  dsimp only
  rw [countSM_perm (insertBeforeId_perm g.nodes t n), countSM_cons, hk]
  simp

/-! ## Invariant preservation through `mergeNodeIntoGroup` -/

/-- A node without a subgraph is trivially balanced. -/
theorem balancedNode_subNone {n : Node} (h : n.sub = none) : balancedNode n := by
  unfold balancedNode
  intro hk
  simp only [h]

/-- Appending one outer output paired with one subgraph output keeps a
node balanced. -/
theorem balancedNode_appendOut {n : Node} {t : Option Ty} {o : ValueRef}
    (h : balancedNode n) :
    balancedNode
      { n with
        outTypes := n.outTypes ++ [t]
        sub := n.sub.map (fun s => { s with outputs := s.outputs ++ [o] }) } := by
  cases n with
  | mk id kind inputs outTypes stage attrs sub =>
    unfold balancedNode at h ⊢
    dsimp at h ⊢
    cases sub with
    | none => intro hk; exact trivial
    | some s =>
      intro hk
      have h2 := h hk
      dsimp
      refine ⟨h2.1, ?_⟩
      rw [List.length_append, List.length_append, h2.2]
      rfl

theorem mergeNodeIntoGroup_balanced {g : Graph} {gid nid amb : Nat} {g' : Graph} {cid : Nat}
    (hw : wfIds g) (hb : balanced g)
    (h : mergeNodeIntoGroup g gid nid amb = Outcome.ok (g', cid)) : balanced g' := by
  rcases mergeNodeIntoGroup_ok_elim h with
    ⟨grp, sub, hgrp, hk, hsub, f, rfl, hfid, hfk, hfo, sub', hfsub, hfin, hsoutl⟩
  have h0 : ¬ gid = 0 := by
    intro h0
    rw [h0] at hgrp
    unfold nodeOf at hgrp
    rw [if_pos rfl] at hgrp
    injection hgrp with e
    rw [← e] at hk
    simp [paramNode] at hk
  rcases nodeOf_decomp hw.1 h0 hgrp with ⟨hid, l1, l2, hdec, hl1, hl2⟩
  intro m hm
  rw [show (updateNode g gid f).nodes = l1 ++ f grp :: l2 from
    updateNode_decomp hdec hid hl1 hl2] at hm
  rcases List.mem_append.mp hm with hm | hm
  · exact hb m (by rw [hdec]; exact List.mem_append_left _ hm)
  · rcases List.mem_cons.mp hm with rfl | hm
    · unfold balancedNode
      intro _
      simp only [hfsub grp]
      refine ⟨hfin grp, ?_⟩
      rw [hfo grp, hsoutl]
      have hbg := hb grp (by rw [hdec]; exact List.mem_append_right _ (List.mem_cons_self _ _))
      unfold balancedNode at hbg
      have h2 := hbg hk
      simp only [hsub] at h2
      exact h2.2
    · exact hb m (by rw [hdec]; exact List.mem_append_right _ (List.mem_cons_of_mem _ hm))

theorem mergeNodeIntoGroup_wfIds {g : Graph} {gid nid amb : Nat} {g' : Graph} {cid : Nat}
    (hw : wfIds g)
    (h : mergeNodeIntoGroup g gid nid amb = Outcome.ok (g', cid)) : wfIds g' := by
  rcases mergeNodeIntoGroup_ok_elim h with
    ⟨grp, sub, hgrp, hk, hsub, f, rfl, hfid, hfk, hfo, rest⟩
  exact wfIds_updateNode hfid hw

theorem mergeNodeIntoGroup_count {g : Graph} {gid nid amb : Nat} {g' : Graph} {cid : Nat}
    (hw : wfIds g)
    (h : mergeNodeIntoGroup g gid nid amb = Outcome.ok (g', cid)) :
    simpleMapCount g' = simpleMapCount g := by
  rcases mergeNodeIntoGroup_ok_elim h with
    ⟨grp, sub, hgrp, hk, hsub, f, rfl, hfid, hfk, hfo, rest⟩
  exact count_updateNode_group hw hgrp hk hfk

theorem mergeNodeIntoGroup_fresh {g : Graph} {gid nid amb : Nat} {g' : Graph} {cid : Nat}
    (h : mergeNodeIntoGroup g gid nid amb = Outcome.ok (g', cid)) :
    g'.fresh = g.fresh := by
  rcases mergeNodeIntoGroup_ok_elim h with
    ⟨grp, sub, hgrp, hk, hsub, f, rfl, rest⟩
  rfl

/-! ## Node lookup across surgeries -/

theorem nodeOf_updateNode_ne {g : Graph} {id : Nat} {f : Node → Node} {j : Nat}
    (hf : ∀ n, (f n).id = n.id) (hj0 : ¬ j = 0) (hj : ¬ j = id) :
    nodeOf (updateNode g id f) j = nodeOf g j := by
  unfold nodeOf updateNode
  rw [if_neg hj0, if_neg hj0]
  dsimp only
  rw [find_id_map (fun n => by by_cases h : n.id = id <;> simp [h, hf n]) j]
  cases hfind : g.nodes.find? (fun n => decide (n.id = j)) with
  | none => rfl
  | some m =>
    have hm : m.id = j := (find_id_decomp hfind).1
    rw [Option.map_some']
    rw [if_neg (by rw [hm]; exact hj)]

theorem nodeOf_replaceAll {g : Graph} {v w : ValueRef} {j : Nat} (hj0 : ¬ j = 0) :
    nodeOf (replaceAllUsesWith g v w) j
      = (nodeOf g j).map (fun n =>
          { n with inputs := n.inputs.map (fun r => if r = v then w else r) }) := by
  unfold nodeOf replaceAllUsesWith
  rw [if_neg hj0, if_neg hj0]
  dsimp only
  apply find_id_map
  intro n
  rfl

theorem find_id_cons_pos {a : Node} {l : List Node} {j : Nat} (h : a.id = j) :
    (a :: l).find? (fun m => decide (m.id = j)) = some a := by
  apply List.find?_cons_of_pos
  exact decide_eq_true h

theorem find_id_cons_neg {a : Node} {l : List Node} {j : Nat} (h : ¬ a.id = j) :
    (a :: l).find? (fun m => decide (m.id = j))
      = l.find? (fun m => decide (m.id = j)) := by
  apply List.find?_cons_of_neg
  simpa using h

theorem find_id_eraseP_ne {l : List Node} {id j : Nat} (hj : ¬ j = id) :
    (l.eraseP (fun n => decide (n.id = id))).find? (fun n => decide (n.id = j))
      = l.find? (fun n => decide (n.id = j)) := by
  induction l with
  | nil => rfl
  | cons a t ih =>
    by_cases ha : a.id = id
    · have hstep : (a :: t).eraseP (fun n => decide (n.id = id)) = t := by
        simp [List.eraseP_cons, ha]
      have hne : ¬ a.id = j := by
        rw [ha]
        intro hh
        exact hj hh.symm
      rw [hstep, find_id_cons_neg hne]
    · have hstep : (a :: t).eraseP (fun n => decide (n.id = id))
          = a :: t.eraseP (fun n => decide (n.id = id)) := by
        simp [List.eraseP_cons, ha]
      rw [hstep]
      by_cases haj : a.id = j
      · rw [find_id_cons_pos haj, find_id_cons_pos haj]
      · rw [find_id_cons_neg haj, find_id_cons_neg haj, ih]

theorem nodeOf_destroy_ne {g : Graph} {id j : Nat} (hj0 : ¬ j = 0) (hj : ¬ j = id) :
    nodeOf (destroy g id) j = nodeOf g j := by
  unfold nodeOf destroy
  rw [if_neg hj0, if_neg hj0]
  exact find_id_eraseP_ne hj

theorem nodeOf_destroy_self {g : Graph} {id : Nat} {n : Node}
    (hu : uniqueIds g) (h0 : ¬ id = 0) (hn : nodeOf g id = some n) :
    nodeOf (destroy g id) id = none := by
  rcases nodeOf_decomp hu h0 hn with ⟨hid, l1, l2, hdec, hl1, hl2⟩
  unfold nodeOf
  rw [if_neg h0, destroy_decomp hdec hid hl1]
  apply List.find?_eq_none.mpr
  intro x hx
  rcases List.mem_append.mp hx with hx | hx
  · simpa using hl1 x hx
  · simpa using hl2 x hx

theorem find_id_insertBefore_ne {l : List Node} {t : Nat} {n : Node} {j : Nat}
    (hn : ¬ n.id = j) :
    (insertBeforeId l t n).find? (fun m => decide (m.id = j))
      = l.find? (fun m => decide (m.id = j)) := by
  induction l with
  | nil =>
    show List.find? (fun m => decide (m.id = j)) [n] = List.find? (fun m => decide (m.id = j)) []
    rw [find_id_cons_neg hn]
  | cons a rest ih =>
    unfold insertBeforeId
    by_cases ha : a.id = t
    · rw [if_pos ha, find_id_cons_neg hn]
    · rw [if_neg ha]
      by_cases haj : a.id = j
      · rw [find_id_cons_pos haj, find_id_cons_pos haj]
      · rw [find_id_cons_neg haj, find_id_cons_neg haj, ih]

theorem find_id_insertAfter_ne {l : List Node} {t : Nat} {n : Node} {j : Nat}
    (hn : ¬ n.id = j) :
    (insertAfterId l t n).find? (fun m => decide (m.id = j))
      = l.find? (fun m => decide (m.id = j)) := by
  induction l with
  | nil =>
    show List.find? (fun m => decide (m.id = j)) [n] = List.find? (fun m => decide (m.id = j)) []
    rw [find_id_cons_neg hn]
  | cons a rest ih =>
    unfold insertAfterId
    by_cases ha : a.id = t
    · rw [if_pos ha]
      by_cases haj : a.id = j
      · rw [find_id_cons_pos haj, find_id_cons_pos haj]
      · rw [find_id_cons_neg haj, find_id_cons_neg hn, find_id_cons_neg haj]
    · rw [if_neg ha]
      by_cases haj : a.id = j
      · rw [find_id_cons_pos haj, find_id_cons_pos haj]
      · rw [find_id_cons_neg haj, find_id_cons_neg haj, ih]

theorem nodeOf_insertBefore_ne {g : Graph} {t : Nat} {n : Node} {fr : Nat} {j : Nat}
    (hj0 : ¬ j = 0) (hn : ¬ n.id = j) :
    nodeOf { g with nodes := insertBeforeId g.nodes t n, fresh := fr } j = nodeOf g j := by
  unfold nodeOf
  rw [if_neg hj0, if_neg hj0]
  exact find_id_insertBefore_ne hn

theorem nodeOf_insertAfter_ne {g : Graph} {t : Nat} {n : Node} {fr : Nat} {j : Nat}
    (hj0 : ¬ j = 0) (hn : ¬ n.id = j) :
    nodeOf { g with nodes := insertAfterId g.nodes t n, fresh := fr } j = nodeOf g j := by
  unfold nodeOf
  rw [if_neg hj0, if_neg hj0]
  exact find_id_insertAfter_ne hn

/-- Monotone bound for destruction. -/
theorem count_destroy_le (g : Graph) (id : Nat) :
    simpleMapCount (destroy g id) ≤ simpleMapCount g :=
  List.Sublist.length_le ((List.eraseP_sublist _).filter _)

/-- `nodeOf` on a destroyed id is `none` (unique ids). -/
theorem nodeOf_destroy_self' {g : Graph} {id : Nat}
    (hu : uniqueIds g) (h0 : ¬ id = 0) :
    nodeOf (destroy g id) id = none := by
  cases hfind : nodeOf g id with
  | some n => exact nodeOf_destroy_self hu h0 hfind
  | none =>
    unfold nodeOf at hfind ⊢
    rw [if_neg h0] at hfind ⊢
    apply List.find?_eq_none.mpr
    intro x hx
    exact List.find?_eq_none.mp hfind x ((List.eraseP_sublist _).subset hx)

/-- A simple map is never a fusion group. -/
theorem isSimpleMap_ne_group {n : Node} (h : isSimpleMap n = true) :
    ¬ n.kind = kFusionGroup := by
  intro hk
  have := isSimpleMap_mem h
  rw [hk] at this
  exact absurd this (by decide)

/-- Everything the later proofs need from a successful
`createSingletonFusionGroup`: the invariants survive, the simple-map count
does not grow, the new group takes the fresh id, the consumer is gone, and
every other node keeps its kind and arity. -/
theorem createSingleton_props {g : Graph} {idx : TopoIdx} {nid amb : Nat}
    {g2 : Graph} {idx1 : TopoIdx} {gid : Nat}
    (hw : wfIds g) (hb : balanced g)
    (h : createSingletonFusionGroup g idx nid amb = Outcome.ok (g2, idx1, gid)) :
    balanced g2 ∧ wfIds g2 ∧ simpleMapCount g2 ≤ simpleMapCount g
      ∧ gid = g.fresh
      ∧ (¬ nid = 0 → nodeOf g2 nid = none)
      ∧ (∀ j pn, ¬ j = 0 → ¬ j = nid → ¬ j = g.fresh → nodeOf g j = some pn →
          ∃ pn', nodeOf g2 j = some pn'
            ∧ pn'.kind = pn.kind ∧ pn'.inputs.length = pn.inputs.length) := by
  unfold createSingletonFusionGroup at h
  rcases Outcome.bind_eq_ok.mp h with ⟨n, hn, h⟩
  dsimp only at h
  rcases Outcome.bind_eq_ok.mp h with ⟨⟨gm, merged⟩, hmerge, h⟩
  dsimp only at h
  rcases Outcome.bind_eq_ok.mp h with ⟨u1, hu1, h⟩
  rw [Outcome.pure_eq_ok] at h
  injection h with h
  injection h with hg2 h
  injection h with hidx hgid
  have hgrpBal : balancedNode
      { id := g.fresh, kind := kFusionGroup, inputs := [], outTypes := [], stage := amb,
        attrs := 0, sub := some { inputTypes := [], nodes := [], outputs := [], fresh := 1 } } := by
    unfold balancedNode
    intro _
    exact ⟨rfl, rfl⟩
  have hwIns : wfIds { g with
      nodes := insertBeforeId g.nodes nid
        { id := g.fresh, kind := kFusionGroup, inputs := [], outTypes := [], stage := amb,
          attrs := 0, sub := some { inputTypes := [], nodes := [], outputs := [], fresh := 1 } },
      fresh := g.fresh + 1 } := wfIds_insertBefore hw rfl
  have hbIns : balanced { g with
      nodes := insertBeforeId g.nodes nid
        { id := g.fresh, kind := kFusionGroup, inputs := [], outTypes := [], stage := amb,
          attrs := 0, sub := some { inputTypes := [], nodes := [], outputs := [], fresh := 1 } },
      fresh := g.fresh + 1 } := balancedL_insertBefore hb hgrpBal
  have hcIns : simpleMapCount { g with
      nodes := insertBeforeId g.nodes nid
        { id := g.fresh, kind := kFusionGroup, inputs := [], outTypes := [], stage := amb,
          attrs := 0, sub := some { inputTypes := [], nodes := [], outputs := [], fresh := 1 } },
      fresh := g.fresh + 1 } = simpleMapCount g := count_insert_group (isSimpleMap_group rfl)
  have hbm := mergeNodeIntoGroup_balanced hwIns hbIns hmerge
  have hwm := mergeNodeIntoGroup_wfIds hwIns hmerge
  have hcm := mergeNodeIntoGroup_count hwIns hmerge
  have hfpt : ∀ nd : Node, balancedNode nd → balancedNode
      { nd with outTypes := nd.outTypes ++ [n.outTypes.headD none],
                sub := nd.sub.map (fun s => { s with outputs := s.outputs ++ [⟨merged, 0⟩] }) } :=
    fun nd hnd => balancedNode_appendOut hnd
  have hbu : balanced (updateNode gm g.fresh (fun nd =>
      { nd with outTypes := nd.outTypes ++ [n.outTypes.headD none],
                sub := nd.sub.map (fun s => { s with outputs := s.outputs ++ [⟨merged, 0⟩] }) })) :=
    balanced_updateNode_pointwise hfpt hbm
  have hwu : wfIds (updateNode gm g.fresh (fun nd =>
      { nd with outTypes := nd.outTypes ++ [n.outTypes.headD none],
                sub := nd.sub.map (fun s => { s with outputs := s.outputs ++ [⟨merged, 0⟩] }) })) :=
    wfIds_updateNode (fun nd => rfl) hwm
  have hcu : simpleMapCount (updateNode gm g.fresh (fun nd =>
      { nd with outTypes := nd.outTypes ++ [n.outTypes.headD none],
                sub := nd.sub.map (fun s => { s with outputs := s.outputs ++ [⟨merged, 0⟩] }) }))
      = simpleMapCount gm :=
    count_updateNode_pointwise (fun nd => isSimpleMap_congr rfl rfl)
  refine ⟨?_, ?_, ?_, hgid.symm, ?_, ?_⟩
  · rw [← hg2]
    exact balanced_destroy (balanced_replaceAll hbu)
  · rw [← hg2]
    exact wfIds_destroy (wfIds_replaceAll hwu)
  · rw [← hg2]
    calc simpleMapCount (destroy (replaceAllUsesWith _ _ _) nid)
        ≤ simpleMapCount (replaceAllUsesWith _ _ _) := count_destroy_le _ _
      _ = simpleMapCount (updateNode gm g.fresh _) := count_replaceAll _ _ _
      _ = simpleMapCount gm := hcu
      _ = simpleMapCount _ := hcm
      _ = simpleMapCount g := hcIns
  · intro h0
    rw [← hg2]
    exact nodeOf_destroy_self' (wfIds_replaceAll hwu).1 h0
  · intro j pn hj0 hjn hjf hpn
    rcases mergeNodeIntoGroup_ok_elim hmerge with
      ⟨grp, sub, hgrp, hk, hsub, f, hgm, hfid, hfk, hfo, rest⟩
    have hInsLookup : nodeOf { g with
        nodes := insertBeforeId g.nodes nid
          { id := g.fresh, kind := kFusionGroup, inputs := [], outTypes := [], stage := amb,
            attrs := 0, sub := some { inputTypes := [], nodes := [], outputs := [], fresh := 1 } },
        fresh := g.fresh + 1 } j = some pn := by
      rw [nodeOf_insertBefore_ne hj0 (fun hh => hjf hh.symm)]
      exact hpn
    have hGm : nodeOf gm j = some pn := by
      rw [hgm, nodeOf_updateNode_ne hfid hj0 hjf]
      exact hInsLookup
    have hstep : nodeOf (updateNode gm g.fresh (fun nd =>
        { nd with outTypes := nd.outTypes ++ [n.outTypes.headD none],
                  sub := nd.sub.map (fun s => { s with outputs := s.outputs ++ [⟨merged, 0⟩] }) })) j
        = nodeOf gm j :=
      nodeOf_updateNode_ne (fun nd => rfl) hj0 hjf
    refine ⟨{ pn with inputs := pn.inputs.map (fun r =>
        if r = (⟨nid, 0⟩ : ValueRef) then (⟨g.fresh, 0⟩ : ValueRef) else r) }, ?_, rfl, ?_⟩
    · rw [← hg2, nodeOf_destroy_ne hj0 hjn, nodeOf_replaceAll hj0, hstep, hGm]
      rfl
    · dsimp
      rw [List.length_map]

/-- An invariant carried through a monadic fold. -/
theorem foldlM_inv {α σ : Type} (P : σ → Prop) {f : σ → α → Outcome σ}
    (hstep : ∀ s a s', P s → f s a = Outcome.ok s' → P s') :
    ∀ (l : List α) (s s' : σ), P s → l.foldlM f s = Outcome.ok s' → P s' := by
  intro l
  induction l with
  | nil =>
    intro s s' hp h
    rw [List.foldlM_nil] at h
    injection h with h
    rw [← h]; exact hp
  | cons a t ih =>
    intro s s' hp h
    rw [List.foldlM_cons] at h
    rcases Outcome.bind_eq_ok.mp h with ⟨s1, h1, h2⟩
    exact ih s1 s' (hstep s a s1 hp h1) h2

/-! ## Invariant preservation through `mergeFusionGroups` and `fuse` -/

theorem clonePStep_props {pgid amb : Nat}
    {st st' : Graph × List (ValueRef × ValueRef) × List Nat} {inner : PNode}
    (hp : balanced st.1 ∧ wfIds st.1)
    (h : clonePStep pgid amb st inner = Outcome.ok st') :
    balanced st'.1 ∧ wfIds st'.1 := by
  rcases st with ⟨g, m, temps⟩
  unfold clonePStep at h
  rcases Outcome.bind_eq_ok.mp h with ⟨ins, hins, h⟩
  dsimp only at h
  rw [Outcome.pure_eq_ok] at h
  injection h with h
  subst h
  exact ⟨balancedL_insertBefore hp.1 (balancedNode_subNone rfl),
    wfIds_insertBefore hp.2 rfl⟩

theorem absorbTemp_props {cgid amb : Nat} {g : Graph} {tid : Nat} {g' : Graph}
    (hp : balanced g ∧ wfIds g) (h : absorbTemp cgid amb g tid = Outcome.ok g') :
    balanced g' ∧ wfIds g' := by
  unfold absorbTemp at h
  rcases Outcome.bind_eq_ok.mp h with ⟨⟨g1, merged⟩, hm, h⟩
  try dsimp only at h
  rcases Outcome.bind_eq_ok.mp h with ⟨t, ht, h⟩
  rcases Outcome.bind_eq_ok.mp h with ⟨g2, hfold, h⟩
  rw [Outcome.pure_eq_ok] at h
  injection h with h
  subst h
  have h1 : balanced g1 ∧ wfIds g1 :=
    ⟨mergeNodeIntoGroup_balanced hp.2 hp.1 hm, mergeNodeIntoGroup_wfIds hp.2 hm⟩
  have h2 : balanced g2 ∧ wfIds g2 := by
    refine foldlM_inv (fun gg : Graph => balanced gg ∧ wfIds gg) ?_
      (List.range t.outTypes.length) g1 g2 h1 hfold
    intro s a s' hs hstep
    split at hstep
    · rw [Outcome.pure_eq_ok] at hstep
      injection hstep with e
      subst e
      exact hs
    · rcases Outcome.bind_eq_ok.mp hstep with ⟨cg, hcg, hstep⟩
      try dsimp only at hstep
      rw [Outcome.pure_eq_ok] at hstep
      injection hstep with e
      subst e
      exact ⟨balanced_replaceAll (balanced_updateNode_pointwise
          (fun nd hnd => balancedNode_appendOut hnd) hs.1),
        wfIds_replaceAll (wfIds_updateNode (fun nd => rfl) hs.2)⟩
  exact ⟨balanced_destroy h2.1, wfIds_destroy h2.2⟩

theorem mergeFusionGroups_props {g : Graph} {cgid pgid amb : Nat} {g' : Graph}
    (hw : wfIds g) (hb : balanced g)
    (h : mergeFusionGroups g cgid pgid amb = Outcome.ok g') :
    balanced g' ∧ wfIds g' := by
  unfold mergeFusionGroups at h
  rcases Outcome.bind_eq_ok.mp h with ⟨pg, hpg, h⟩
  rcases Outcome.bind_eq_ok.mp h with ⟨u1, hu1, h⟩
  rcases Outcome.bind_eq_ok.mp h with ⟨psub, hpsub, h⟩
  rcases Outcome.bind_eq_ok.mp h with ⟨m0, hm0, h⟩
  rcases Outcome.bind_eq_ok.mp h with ⟨⟨g1, m1, temps⟩, hclone, h⟩
  dsimp only at h
  rcases Outcome.bind_eq_ok.mp h with ⟨g2, hrepl, h⟩
  have h1 : balanced g1 ∧ wfIds g1 := by
    have := foldlM_inv
      (fun st : Graph × List (ValueRef × ValueRef) × List Nat => balanced st.1 ∧ wfIds st.1)
      (fun s a s' hs hst => clonePStep_props hs hst)
      psub.nodes (g, m0, []) (g1, m1, temps) ⟨hb, hw⟩ hclone
    exact this
  have h2 : balanced g2 ∧ wfIds g2 := by
    refine foldlM_inv (fun gg : Graph => balanced gg ∧ wfIds gg) ?_
      psub.outputs.enum g1 g2 h1 hrepl
    intro s a s' hs hstep
    rcases Outcome.bind_eq_ok.mp hstep with ⟨outer, houter, hstep⟩
    rw [Outcome.pure_eq_ok] at hstep
    injection hstep with e
    subst e
    exact ⟨balanced_replaceAll hs.1, wfIds_replaceAll hs.2⟩
  refine foldlM_inv (fun gg : Graph => balanced gg ∧ wfIds gg) ?_
    temps.reverse (destroy g2 pgid) g' ⟨balanced_destroy h2.1, wfIds_destroy h2.2⟩ h
  intro s a s' hs hstep
  exact absorbTemp_props hs hstep

theorem fuse_props {g : Graph} {idx : TopoIdx} {c : Nat} {p : ValueRef} {amb : Nat}
    {g' : Graph} {idx' : TopoIdx} {gid : Nat}
    (hw : wfIds g) (hb : balanced g)
    (h : fuse g idx c p amb = Outcome.ok (g', idx', gid)) :
    balanced g' ∧ wfIds g' := by
  unfold fuse at h
  rcases Outcome.bind_eq_ok.mp h with ⟨cn, hcn, h⟩
  dsimp only at h
  split at h
  · rcases Outcome.bind_eq_ok.mp h with ⟨⟨g1, idx1, gid1⟩, h1, h⟩
    have hcs := createSingleton_props hw hb h1
    have hp1 : balanced g1 ∧ wfIds g1 := ⟨hcs.1, hcs.2.1⟩
    try dsimp only at h
    rcases Outcome.bind_eq_ok.mp h with ⟨pn, hpn, h⟩
    split at h
    · rcases Outcome.bind_eq_ok.mp h with ⟨g2, h2, h⟩
      rw [Outcome.pure_eq_ok] at h
      injection h with e
      injection e with e1 e
      rw [← e1]
      exact mergeFusionGroups_props hp1.2 hp1.1 h2
    · rcases Outcome.bind_eq_ok.mp h with ⟨⟨g2, merged⟩, h2, h⟩
      try dsimp only at h
      have hp2 : balanced g2 ∧ wfIds g2 :=
        ⟨mergeNodeIntoGroup_balanced hp1.2 hp1.1 h2, mergeNodeIntoGroup_wfIds hp1.2 h2⟩
      split at h
      · rcases Outcome.bind_eq_ok.mp h with ⟨grp2, hgrp2, h⟩
        rw [Outcome.pure_eq_ok] at h
        injection h with e
        injection e with e1 e
        rw [← e1]
        exact ⟨balanced_destroy (balanced_replaceAll (balanced_updateNode_pointwise
            (fun nd hnd => balancedNode_appendOut hnd) hp2.1)),
          wfIds_destroy (wfIds_replaceAll (wfIds_updateNode (fun nd => rfl) hp2.2))⟩
      · rw [Outcome.pure_eq_ok] at h
        injection h with e
        injection e with e1 e
        rw [← e1]
        exact ⟨balanced_destroy hp2.1, wfIds_destroy hp2.2⟩
  · rw [Outcome.pure_eq_ok, Outcome.ok_bind] at h
    have hp1 : balanced g ∧ wfIds g := ⟨hb, hw⟩
    try dsimp only at h
    rcases Outcome.bind_eq_ok.mp h with ⟨pn, hpn, h⟩
    split at h
    · rcases Outcome.bind_eq_ok.mp h with ⟨g2, h2, h⟩
      rw [Outcome.pure_eq_ok] at h
      injection h with e
      injection e with e1 e
      rw [← e1]
      exact mergeFusionGroups_props hp1.2 hp1.1 h2
    · rcases Outcome.bind_eq_ok.mp h with ⟨⟨g2, merged⟩, h2, h⟩
      try dsimp only at h
      have hp2 : balanced g2 ∧ wfIds g2 :=
        ⟨mergeNodeIntoGroup_balanced hp1.2 hp1.1 h2, mergeNodeIntoGroup_wfIds hp1.2 h2⟩
      split at h
      · rcases Outcome.bind_eq_ok.mp h with ⟨grp2, hgrp2, h⟩
        rw [Outcome.pure_eq_ok] at h
        injection h with e
        injection e with e1 e
        rw [← e1]
        exact ⟨balanced_destroy (balanced_replaceAll (balanced_updateNode_pointwise
            (fun nd hnd => balancedNode_appendOut hnd) hp2.1)),
          wfIds_destroy (wfIds_replaceAll (wfIds_updateNode (fun nd => rfl) hp2.2))⟩
      · rw [Outcome.pure_eq_ok] at h
        injection h with e
        injection e with e1 e
        rw [← e1]
        exact ⟨balanced_destroy hp2.1, wfIds_destroy hp2.2⟩

/-- Destroying a simple-map node pushes the count strictly below any upper
bound of the pre-state count. -/
theorem count_after_destroy_lt {X : Graph} {j : Nat} {pnX : Node} {cnt : Nat}
    (hwX : wfIds X) (hj0 : ¬ j = 0) (hpnX : nodeOf X j = some pnX)
    (hsmX : isSimpleMap pnX = true) (hle : simpleMapCount X ≤ cnt) :
    simpleMapCount (destroy X j) < cnt := by
  have hd := count_destroy hwX hj0 hpnX
  rw [hsmX] at hd
  simp at hd
  omega

/-- End-game of the merge path: appending a group output, redirecting the
uses, then destroying the simple-map producer strictly decreases the count. -/
theorem count_endgame {g2 : Graph} {gid : Nat} {F : Node → Node} {p w : ValueRef}
    {pn2 : Node} {cnt : Nat}
    (hw2 : wfIds g2) (hFid : ∀ nd, (F nd).id = nd.id) (hFk : ∀ nd, (F nd).kind = nd.kind)
    (hFi : ∀ nd, (F nd).inputs = nd.inputs)
    (hp0 : ¬ p.node = 0) (hpgid : ¬ p.node = gid)
    (hpn2 : nodeOf g2 p.node = some pn2) (hsm2 : isSimpleMap pn2 = true)
    (hle : simpleMapCount g2 ≤ cnt) :
    simpleMapCount (destroy (replaceAllUsesWith (updateNode g2 gid F) p w) p.node) < cnt := by
  have hwU : wfIds (updateNode g2 gid F) := wfIds_updateNode hFid hw2
  have hwR : wfIds (replaceAllUsesWith (updateNode g2 gid F) p w) := wfIds_replaceAll hwU
  have hpnU : nodeOf (updateNode g2 gid F) p.node = some pn2 := by
    rw [nodeOf_updateNode_ne hFid hp0 hpgid]
    exact hpn2
  have hpnR : nodeOf (replaceAllUsesWith (updateNode g2 gid F) p w) p.node
      = some { pn2 with inputs := pn2.inputs.map (fun r => if r = p then w else r) } := by
    rw [nodeOf_replaceAll hp0, hpnU]
    rfl
  have hsmR : isSimpleMap
      { pn2 with inputs := pn2.inputs.map (fun r => if r = p then w else r) } = true := by
    have hcongr : isSimpleMap
        { pn2 with inputs := pn2.inputs.map (fun r => if r = p then w else r) }
        = isSimpleMap pn2 := isSimpleMap_congr rfl (by simp)
    rw [hcongr]
    exact hsm2
  have hcU : simpleMapCount (updateNode g2 gid F) = simpleMapCount g2 :=
    count_updateNode_pointwise (fun nd => isSimpleMap_congr (hFk nd) (by rw [hFi nd]))
  have hcR : simpleMapCount (replaceAllUsesWith (updateNode g2 gid F) p w)
      = simpleMapCount g2 := by
    rw [count_replaceAll, hcU]
  exact count_after_destroy_lt hwR hp0 hpnR hsmR (by omega)

/-- C1 (amended): a `fuse` step whose producer is a plain simple-map node
(not a fusion group) strictly decreases the number of non-group simple-map
nodes in the graph. -/
theorem C1_fuse_decreases {g : Graph} {idx : TopoIdx} {c : Nat} {p : ValueRef}
    {amb : Nat} {g' : Graph} {idx' : TopoIdx} {gid : Nat} {pn : Node}
    (hw : wfIds g) (hb : balanced g)
    (hpn : nodeOf g p.node = some pn) (hsm : isSimpleMap pn = true)
    (hok : fuse g idx c p amb = Outcome.ok (g', idx', gid)) :
    simpleMapCount g' < simpleMapCount g := by
  have hp0 : ¬ p.node = 0 := by
    intro h0
    rw [h0] at hpn
    unfold nodeOf at hpn
    rw [if_pos rfl] at hpn
    injection hpn with e
    have hfalse : isSimpleMap (paramNode g) = false := rfl
    rw [← e, hfalse] at hsm
    exact Bool.noConfusion hsm
  rcases nodeOf_decomp hw.1 hp0 hpn with ⟨hid, l1, l2, hdec, _, _⟩
  have hmem : pn ∈ g.nodes := by
    rw [hdec]
    exact List.mem_append_right _ (List.mem_cons_self _ _)
  have hbound : p.node < g.fresh := by
    rw [← hid]
    exact hw.2 pn hmem
  unfold fuse at hok
  rcases Outcome.bind_eq_ok.mp hok with ⟨cn, hcn, hok⟩
  dsimp only at hok
  split at hok
  · rcases Outcome.bind_eq_ok.mp hok with ⟨⟨g1, idx1, gid1⟩, h1, hok⟩
    have hcs := createSingleton_props hw hb h1
    try dsimp only at hok
    by_cases hpc : p.node = c
    · have hnone : nodeOf g1 p.node = none := by
        rw [hpc]
        exact hcs.2.2.2.2.1 (by rw [← hpc]; exact hp0)
      rcases Outcome.bind_eq_ok.mp hok with ⟨pnx, hpnx, hok⟩
      have hx := Outcome.lift_eq_ok.mp hpnx
      rw [hnone] at hx
      cases hx
    · have hpf : ¬ p.node = g.fresh := by omega
      rcases hcs.2.2.2.2.2 p.node pn hp0 hpc hpf hpn with ⟨pn1, hpn1g, hk1, hl1⟩
      have hsm1 : isSimpleMap pn1 = true := by
        rw [isSimpleMap_congr hk1 hl1]
        exact hsm
      have hpgid : ¬ p.node = gid1 := by
        rw [hcs.2.2.2.1]
        exact hpf
      have hw1' : wfIds g1 := hcs.2.1
      have hcnt1 : simpleMapCount g1 ≤ simpleMapCount g := hcs.2.2.1
      rcases Outcome.bind_eq_ok.mp hok with ⟨pnx, hpnx, hok⟩
      have hx := Outcome.lift_eq_ok.mp hpnx
      rw [hpn1g] at hx
      injection hx with ex
      have hsmx : isSimpleMap pnx = true := by rw [← ex]; exact hsm1
      split at hok
      · rename_i hgk
        exact absurd hgk (isSimpleMap_ne_group hsmx)
      · rcases Outcome.bind_eq_ok.mp hok with ⟨⟨g2, merged⟩, h2, hok⟩
        try dsimp only at hok
        have hw2 : wfIds g2 := mergeNodeIntoGroup_wfIds hw1' h2
        have hc2 : simpleMapCount g2 = simpleMapCount g1 := mergeNodeIntoGroup_count hw1' h2
        have hpn2 : nodeOf g2 p.node = some pn1 := by
          rcases mergeNodeIntoGroup_ok_elim h2 with
            ⟨grp, sub, hgrp, hk, hsub, f, hg2eq, hfid, rest⟩
          rw [hg2eq, nodeOf_updateNode_ne hfid hp0 hpgid, hpn1g]
        split at hok
        · rcases Outcome.bind_eq_ok.mp hok with ⟨grp2, hgrp2, hok⟩
          rw [Outcome.pure_eq_ok] at hok
          injection hok with e
          injection e with e1 e
          rw [← e1]
          exact count_endgame hw2 (fun nd => rfl) (fun nd => rfl) (fun nd => rfl)
            hp0 hpgid hpn2 hsm1 (by omega)
        · rw [Outcome.pure_eq_ok] at hok
          injection hok with e
          injection e with e1 e
          rw [← e1]
          exact count_after_destroy_lt hw2 hp0 hpn2 hsm1 (by omega)
  · rw [Outcome.pure_eq_ok, Outcome.ok_bind] at hok
    try dsimp only at hok
    have hpc : ¬ p.node = c := by
      intro he
      rename_i hcf
      have hcn' := Outcome.lift_eq_ok.mp hcn
      rw [← he, hpn] at hcn'
      injection hcn' with e2
      have : pn.kind = kFusionGroup := by
        rw [e2]
        by_contra hne
        exact hcf hne
      exact absurd this (isSimpleMap_ne_group hsm)
    rcases Outcome.bind_eq_ok.mp hok with ⟨pnx, hpnx, hok⟩
    have hx := Outcome.lift_eq_ok.mp hpnx
    rw [hpn] at hx
    injection hx with ex
    have hsmx : isSimpleMap pnx = true := by rw [← ex]; exact hsm
    split at hok
    · rename_i hgk
      exact absurd hgk (isSimpleMap_ne_group hsmx)
    · rcases Outcome.bind_eq_ok.mp hok with ⟨⟨g2, merged⟩, h2, hok⟩
      try dsimp only at hok
      have hw2 : wfIds g2 := mergeNodeIntoGroup_wfIds hw h2
      have hc2 : simpleMapCount g2 = simpleMapCount g := mergeNodeIntoGroup_count hw h2
      have hpn2 : nodeOf g2 p.node = some pn := by
        rcases mergeNodeIntoGroup_ok_elim h2 with
          ⟨grp, sub, hgrp, hk, hsub, f, hg2eq, hfid, rest⟩
        rw [hg2eq, nodeOf_updateNode_ne hfid hp0 hpc, hpn]
      split at hok
      · rcases Outcome.bind_eq_ok.mp hok with ⟨grp2, hgrp2, hok⟩
        rw [Outcome.pure_eq_ok] at hok
        injection hok with e
        injection e with e1 e
        rw [← e1]
        exact count_endgame hw2 (fun nd => rfl) (fun nd => rfl) (fun nd => rfl)
          hp0 hpc hpn2 hsm (by omega)
      · rw [Outcome.pure_eq_ok] at hok
        injection hok with e
        injection e with e1 e
        rw [← e1]
        exact count_after_destroy_lt hw2 hp0 hpn2 hsm (by omega)

/-- C1 witness: fusing the exp producer `%1` into the tanh consumer `%2`
of `exTwoSweep` strictly decreases the simple-map count. -/
theorem C1_witness :
    simpleMapCount c1Graph < simpleMapCount exTwoSweep :=
  @C1_fuse_decreases exTwoSweep (initIdx exTwoSweep) 2 ⟨1, 0⟩ 0 c1Graph c1Idx c1Gid
    { id := 1, kind := kexp, inputs := [⟨0, 0⟩], outTypes := [t22],
      stage := 0, attrs := 0, sub := none }
    (by unfold wfIds uniqueIds uniqueIdsL freshBound freshBoundL; decide)
    (by
      intro n hn
      simp [exTwoSweep] at hn
      rcases hn with rfl | rfl | rfl | rfl <;> (apply balancedNode_subNone; rfl))
    rfl rfl rfl

/-- C2: every surgery that adds or removes an outer input or output of a
fusion group — `mergeNodeIntoGroup`, `mergeFusionGroups`,
`createSingletonFusionGroup`, and `fuse` — preserves the pairing invariant:
each group's outer input count equals its subgraph's input count and its
outer output count equals its subgraph's output count. -/
theorem C2_group_pairing :
    (∀ (g : Graph) (gid nid amb : Nat) (g' : Graph) (cid : Nat),
        wfIds g → balanced g →
        mergeNodeIntoGroup g gid nid amb = Outcome.ok (g', cid) → balanced g')
    ∧ (∀ (g : Graph) (cgid pgid amb : Nat) (g' : Graph),
        wfIds g → balanced g →
        mergeFusionGroups g cgid pgid amb = Outcome.ok g' → balanced g')
    ∧ (∀ (g : Graph) (idx : TopoIdx) (nid amb : Nat) (g' : Graph) (idx' : TopoIdx) (gid : Nat),
        wfIds g → balanced g →
        createSingletonFusionGroup g idx nid amb = Outcome.ok (g', idx', gid) → balanced g')
    ∧ (∀ (g : Graph) (idx : TopoIdx) (c : Nat) (p : ValueRef) (amb : Nat)
        (g' : Graph) (idx' : TopoIdx) (gid : Nat),
        wfIds g → balanced g →
        fuse g idx c p amb = Outcome.ok (g', idx', gid) → balanced g') := by
  refine ⟨?_, ?_, ?_, ?_⟩
  · intro g gid nid amb g' cid hw hb h
    exact mergeNodeIntoGroup_balanced hw hb h
  · intro g cgid pgid amb g' hw hb h
    exact (mergeFusionGroups_props hw hb h).1
  · intro g idx nid amb g' idx' gid hw hb h
    exact (createSingleton_props hw hb h).1
  · intro g idx c p amb g' idx' gid hw hb h
    exact (fuse_props hw hb h).1

/-- C2 witness: the concrete `fuse` step on `exTwoSweep` yields a graph
whose fusion group keeps outer and subgraph input/output counts paired. -/
theorem C2_witness : balanced c1Graph :=
  C2_group_pairing.2.2.2 exTwoSweep (initIdx exTwoSweep) 2 ⟨1, 0⟩ 0 c1Graph c1Idx c1Gid
    (by unfold wfIds uniqueIds uniqueIdsL freshBound freshBoundL; decide)
    (by
      intro n hn
      simp [exTwoSweep] at hn
      rcases hn with rfl | rfl | rfl | rfl <;> (apply balancedNode_subNone; rfl))
    rfl

/-- `Node::input()` succeeds exactly on one-element input lists. -/
theorem inputSingle_eq {l : List ValueRef} {v : ValueRef}
    (h : inputSingle l = Outcome.ok v) : l = [v] := by
  cases l with
  | nil => simp [inputSingle] at h
  | cons a t =>
    cases t with
    | nil =>
      unfold inputSingle at h
      injection h with e
      rw [e]
    | cons b t2 => simp [inputSingle] at h

/-- A distributed split carries the id it was asked to carry. -/
theorem mkInputChunk_id {g : Graph} {chunk : Node} {input : ValueRef} {sid amb : Nat}
    {sn : Node} (h : mkInputChunk g chunk input sid amb = Outcome.ok sn) : sn.id = sid := by
  unfold mkInputChunk at h
  rcases Outcome.bind_eq_ok.mp h with ⟨itt, hitt, h⟩
  rcases Outcome.bind_eq_ok.mp h with ⟨souts, hsouts, h⟩
  rw [Outcome.pure_eq_ok] at h
  injection h with e
  rw [← e]

/-- A fold whose every successful step grows a measure by one grows it by
the list length. -/
theorem foldlM_len {α σ : Type} (len : σ → Nat) {f : σ → α → Outcome σ}
    (hstep : ∀ s a s', f s a = Outcome.ok s' → len s' = len s + 1) :
    ∀ (l : List α) (s s' : σ), l.foldlM f s = Outcome.ok s' → len s' = len s + l.length := by
  intro l
  induction l with
  | nil =>
    intro s s' h
    rw [List.foldlM_nil] at h
    injection h with h
    rw [← h]
    simp
  | cons a t ih =>
    intro s s' h
    rw [List.foldlM_cons] at h
    rcases Outcome.bind_eq_ok.mp h with ⟨s1, h1, h2⟩
    have ha := hstep s a s1 h1
    have hb := ih s1 s' h2
    rw [hb, ha]
    simp only [List.length_cons]
    omega

/-- Destroying a present node removes exactly one node. -/
theorem destroy_length {g : Graph} {id : Nat} {n : Node}
    (hu : uniqueIds g) (h0 : ¬ id = 0) (hn : nodeOf g id = some n) :
    (destroy g id).nodes.length + 1 = g.nodes.length := by
  rcases nodeOf_decomp hu h0 hn with ⟨hid, l1, l2, hdec, hl1, hl2⟩
  rw [destroy_decomp hdec hid hl1, hdec]
  simp only [List.length_append, List.length_cons]
  omega

/-- A present node id lies below the fresh counter. -/
theorem nodeOf_some_bound {g : Graph} {j : Nat} {a : Node}
    (hw : wfIds g) (hj0 : ¬ j = 0) (ha : nodeOf g j = some a) : j < g.fresh := by
  rcases nodeOf_decomp hw.1 hj0 ha with ⟨hid, l1, l2, hdec, _, _⟩
  have hmem : a ∈ g.nodes := by
    rw [hdec]
    exact List.mem_append_right _ (List.mem_cons_self _ _)
  have := hw.2 a hmem
  omega

/-- A successful monadic map produces a list of the same length. -/
theorem mapM_ok_length {α β : Type} {f : α → Outcome β} :
    ∀ {l : List α} {l' : List β}, l.mapM f = Outcome.ok l' → l'.length = l.length := by
  intro l
  induction l with
  | nil =>
    intro l' h
    rw [List.mapM_nil, Outcome.pure_eq_ok] at h
    injection h with h
    rw [← h]
    rfl
  | cons a t ih =>
    intro l' h
    rw [List.mapM_cons] at h
    rcases Outcome.bind_eq_ok.mp h with ⟨b, hb, h⟩
    rcases Outcome.bind_eq_ok.mp h with ⟨bt, hbt, h⟩
    rw [Outcome.pure_eq_ok] at h
    injection h with e
    rw [← e]
    simp [ih hbt]

/-- Full characterisation of a distributed split node. -/
theorem mkInputChunk_spec {g : Graph} {chunk : Node} {input : ValueRef} {sid amb : Nat}
    {sn : Node} (h : mkInputChunk g chunk input sid amb = Outcome.ok sn) :
    sn.id = sid ∧ sn.kind = ksplit ∧ sn.inputs = [input] ∧ sn.stage = amb
      ∧ sn.attrs = chunk.attrs ∧ sn.sub = none
      ∧ sn.outTypes.length = chunk.outTypes.length := by
  unfold mkInputChunk at h
  rcases Outcome.bind_eq_ok.mp h with ⟨itt, hitt, h⟩
  rcases Outcome.bind_eq_ok.mp h with ⟨souts, hsouts, h⟩
  rw [Outcome.pure_eq_ok] at h
  injection h with e
  have hlen : souts.length = chunk.outTypes.length := mapM_ok_length hsouts
  rw [← e]
  exact ⟨rfl, rfl, rfl, rfl, rfl, rfl, hlen⟩

/-- Finding a freshly inserted node by its id. -/
theorem find_id_insertAfter_self {l : List Node} {t : Nat} {n : Node}
    (hfresh : ∀ m ∈ l, ¬ m.id = n.id) :
    (insertAfterId l t n).find? (fun m => decide (m.id = n.id)) = some n := by
  induction l with
  | nil =>
    unfold insertAfterId
    exact find_id_cons_pos rfl
  | cons a as ih =>
    unfold insertAfterId
    by_cases ha : a.id = t
    · rw [if_pos ha, find_id_cons_neg (hfresh a (List.mem_cons_self a as))]
      exact find_id_cons_pos rfl
    · rw [if_neg ha, find_id_cons_neg (hfresh a (List.mem_cons_self a as))]
      exact ih (fun m hm => hfresh m (List.mem_cons_of_mem a hm))

/-- `nodeOf` of a freshly inserted node. -/
theorem nodeOf_insertAfter_self {g : Graph} {t : Nat} {n : Node} {fr : Nat}
    (hfresh : ∀ m ∈ g.nodes, ¬ m.id = n.id) (h0 : ¬ n.id = 0) :
    nodeOf { g with nodes := insertAfterId g.nodes t n, fresh := fr } n.id = some n := by
  unfold nodeOf
  rw [if_neg h0]
  exact find_id_insertAfter_self hfresh

/-- An empty association list redirects nothing. -/
theorem redirectBy_nil (cid : Nat) (r : ValueRef) : redirectBy cid [] r = r := by
  unfold redirectBy
  split
  · rfl
  · rfl

theorem map_redirectBy_nil (cid : Nat) (l : List ValueRef) :
    l.map (redirectBy cid []) = l := by
  induction l with
  | nil => rfl
  | cons a t ih => rw [List.map_cons, redirectBy_nil, ih]

/-- One `replaceAllUsesWith` substitution followed by the redirection for
the remaining association list equals the redirection for the extended
list (the freshly introduced clone id is never itself redirected). -/
theorem redirectBy_step {cid j oid : Nat} {assoc : List (Nat × Nat)}
    (hoid : ¬ oid = cid) (r : ValueRef) :
    redirectBy cid assoc (if r = (⟨cid, j⟩ : ValueRef) then (⟨oid, 0⟩ : ValueRef) else r)
      = redirectBy cid ((j, oid) :: assoc) r := by
  by_cases hr : r = (⟨cid, j⟩ : ValueRef)
  · rw [if_pos hr, hr]
    unfold redirectBy
    rw [if_neg hoid, if_pos rfl]
    have hfind : List.find? (fun a => decide (a.1 = ({ node := cid, idx := j } : ValueRef).idx))
        ((j, oid) :: assoc) = some (j, oid) :=
      List.find?_cons_of_pos _ (by simp)
    rw [hfind]
  · rw [if_neg hr]
    unfold redirectBy
    by_cases hn : r.node = cid
    · have hidx : ¬ j = r.idx := by
        intro he
        apply hr
        cases r with
        | mk rn ri =>
          dsimp at hn he
          rw [hn, ← he]
      have hfind : List.find? (fun a => decide (a.1 = r.idx)) ((j, oid) :: assoc)
          = List.find? (fun a => decide (a.1 = r.idx)) assoc :=
        List.find?_cons_of_neg _ (by simp [hidx])
      rw [if_pos hn, if_pos hn, hfind]
    · rw [if_neg hn, if_neg hn]

/-- References to the fresh splits are untouched by a chunk-output
substitution. -/
theorem map_splitRefs_subst {splitIds : List Nat} {cid k oid : Nat} {j : Nat}
    (hsp : ∀ sid ∈ splitIds, ¬ sid = cid) :
    (splitIds.map (fun sid => (⟨sid, j⟩ : ValueRef))).map
        (fun r => if r = (⟨cid, k⟩ : ValueRef) then (⟨oid, 0⟩ : ValueRef) else r)
      = splitIds.map (fun sid => (⟨sid, j⟩ : ValueRef)) := by
  rw [List.map_map]
  apply List.map_congr_left
  intro sid hsid
  dsimp
  rw [if_neg]
  intro he
  injection he with e1 e2
  exact hsp sid hsid e1

/-- References to the fresh splits are untouched by the redirection map. -/
theorem map_splitRefs_redirect {splitIds : List Nat} {cid : Nat}
    {assoc : List (Nat × Nat)} {j : Nat}
    (hsp : ∀ sid ∈ splitIds, ¬ sid = cid) :
    (splitIds.map (fun sid => (⟨sid, j⟩ : ValueRef))).map (redirectBy cid assoc)
      = splitIds.map (fun sid => (⟨sid, j⟩ : ValueRef)) := by
  rw [List.map_map]
  apply List.map_congr_left
  intro sid hsid
  dsimp
  unfold redirectBy
  rw [if_neg (hsp sid hsid)]

/-- Characterisation of the operand loop of `tryToMoveChunk`: it appends
one fresh split per operand, each a `split` node with the chunk's
attributes and arity consuming exactly its operand, leaves every old node,
the outputs and the input types untouched, and grows the graph by one node
per operand. -/
theorem chunkSplitFold_spec
    {f : Graph × TopoIdx × List Nat × Nat → ValueRef → Outcome (Graph × TopoIdx × List Nat × Nat)}
    (cattrs clen amb : Nat) :
    ∀ (ops : List ValueRef) (g0 : Graph) (idx0 : TopoIdx) (acc : List Nat) (ip0 : Nat)
      (g1 : Graph) (idx1 : TopoIdx) (sids : List Nat) (ip1 : Nat),
      wfIds g0 → 0 < g0.fresh →
      ops.foldlM f (g0, idx0, acc, ip0) = Outcome.ok (g1, idx1, sids, ip1) →
      (∀ gs idxs acc' ip op s', f (gs, idxs, acc', ip) op = Outcome.ok s' →
        ∃ sn : Node,
          s' = ({ gs with nodes := insertAfterId gs.nodes ip sn, fresh := gs.fresh + 1 },
                idxs.set gs.fresh (idxs.lookupNode ip), acc' ++ [gs.fresh], gs.fresh)
          ∧ sn.id = gs.fresh ∧ sn.kind = ksplit ∧ sn.inputs = [op] ∧ sn.stage = amb
          ∧ sn.attrs = cattrs ∧ sn.outTypes.length = clen) →
      ∃ newIds : List Nat,
        sids = acc ++ newIds
        ∧ newIds.length = ops.length
        ∧ wfIds g1
        ∧ g0.fresh ≤ g1.fresh
        ∧ (∀ j ∈ newIds, g0.fresh ≤ j ∧ j < g1.fresh)
        ∧ g1.nodes.length = g0.nodes.length + ops.length
        ∧ g1.outputs = g0.outputs
        ∧ g1.inputTypes = g0.inputTypes
        ∧ (∀ id n, ¬ id = 0 → nodeOf g0 id = some n → nodeOf g1 id = some n)
        ∧ (∀ i sid, newIds.get? i = some sid →
             ∃ sn op, ops.get? i = some op
               ∧ nodeOf g1 sid = some sn
               ∧ sn.id = sid ∧ sn.kind = ksplit ∧ sn.inputs = [op] ∧ sn.stage = amb
               ∧ sn.attrs = cattrs ∧ sn.outTypes.length = clen) := by
  intro ops
  induction ops with
  | nil =>
    intro g0 idx0 acc ip0 g1 idx1 sids ip1 hw hpos h hstep
    rw [List.foldlM_nil, Outcome.pure_eq_ok] at h
    injection h with e
    injection e with e1 e
    injection e with e2 e
    injection e with e3 e4
    subst e1
    subst e3
    refine ⟨[], by simp, rfl, hw, Nat.le_refl _, ?_, by simp, rfl, rfl, ?_, ?_⟩
    · intro j hj
      simp at hj
    · intro id n h0 hn
      exact hn
    · intro i sid hsid
      simp at hsid
  | cons op rest ih =>
    intro g0 idx0 acc ip0 g1 idx1 sids ip1 hw hpos h hstep
    rw [List.foldlM_cons] at h
    rcases Outcome.bind_eq_ok.mp h with ⟨s1, h1, h⟩
    rcases hstep g0 idx0 acc ip0 op s1 h1 with ⟨sn, hs1, hid, hkind, hin, hstage, hattrs, hslen⟩
    subst hs1
    have hw1 : wfIds { g0 with nodes := insertAfterId g0.nodes ip0 sn, fresh := g0.fresh + 1 } :=
      wfIds_insertAfter hw hid
    rcases ih _ _ _ _ g1 idx1 sids ip1 hw1 (by dsimp; omega) h hstep with
      ⟨newIds, hsid, hnlen, hw'', hfr, hbnd, hcnt, hout, hity, htrans, hsplit⟩
    have hfr' : g0.fresh + 1 ≤ g1.fresh := hfr
    refine ⟨g0.fresh :: newIds, ?_, by simp [hnlen], hw'', by omega, ?_, ?_, hout, hity, ?_, ?_⟩
    · rw [hsid, List.append_assoc]
      rfl
    · intro j hj
      rcases List.mem_cons.mp hj with rfl | hj
      · exact ⟨Nat.le_refl _, by omega⟩
      · have h2 : g0.fresh + 1 ≤ j := (hbnd j hj).1
        have h3 : j < g1.fresh := (hbnd j hj).2
        exact ⟨by omega, h3⟩
    · have hins : (insertAfterId g0.nodes ip0 sn).length = g0.nodes.length + 1 := by
        rw [List.Perm.length_eq (insertAfterId_perm _ _ _)]
        rfl
      have hcnt' : g1.nodes.length
          = (insertAfterId g0.nodes ip0 sn).length + rest.length := hcnt
      simp only [List.length_cons]
      omega
    · intro id n h0 hn
      apply htrans id n h0
      rw [nodeOf_insertAfter_ne h0
        (by rw [hid]; have := nodeOf_some_bound hw h0 hn; omega)]
      exact hn
    · intro i sid hsid'
      cases i with
      | zero =>
        have he : some g0.fresh = some sid := hsid'
        injection he with he
        subst he
        have hself : nodeOf
            { g0 with nodes := insertAfterId g0.nodes ip0 sn, fresh := g0.fresh + 1 }
            g0.fresh = some sn := by
          rw [← hid]
          apply nodeOf_insertAfter_self
          · intro m hm
            have := hw.2 m hm
            rw [hid]
            omega
          · rw [hid]
            omega
        refine ⟨sn, op, rfl, htrans g0.fresh sn (by omega) hself, hid, hkind, hin,
          hstage, hattrs, hslen⟩
      | succ i =>
        have hsid'' : newIds.get? i = some sid := hsid'
        rcases hsplit i sid hsid'' with ⟨sn', op', hop, rest'⟩
        exact ⟨sn', op', hop, rest'⟩

/-- Characterisation of the clone loop of `tryToMoveChunk`: it appends one
clone of the splittee per chunk index, whose single output type is the
original chunk output's tensor type made contiguous and whose inputs read
the corresponding output of every fresh split; every old node survives
with its uses of the chunk outputs rerouted to the corresponding clone,
and the graph outputs are rerouted the same way. -/
theorem chunkCloneFold_spec
    {f : Graph × TopoIdx × Nat → Nat × Option Ty → Outcome (Graph × TopoIdx × Nat)}
    (pk : NodeKind) (pattrs amb cid : Nat) (splitIds : List Nat) :
    ∀ (es : List (Nat × Option Ty)) (g0 : Graph) (idx0 : TopoIdx) (ip0 : Nat)
      (g2 : Graph) (idx2 : TopoIdx) (ipz : Nat),
      wfIds g0 → 0 < g0.fresh → cid < g0.fresh →
      (∀ sid ∈ splitIds, ¬ sid = cid) →
      es.foldlM f (g0, idx0, ip0) = Outcome.ok (g2, idx2, ipz) →
      (∀ gs idxs ip e s', f (gs, idxs, ip) e = Outcome.ok s' →
        ∃ ctt, expectTensor e.2 = some ctt
          ∧ s' = (cloneStepGraph pk pattrs amb cid splitIds gs ip e.1 ctt,
                  idxs.set gs.fresh (idxs.lookupNode ip), gs.fresh)) →
      ∃ oids : List Nat,
        oids.length = es.length
        ∧ wfIds g2
        ∧ g0.fresh ≤ g2.fresh
        ∧ (∀ j ∈ oids, g0.fresh ≤ j ∧ j < g2.fresh)
        ∧ g2.nodes.length = g0.nodes.length + es.length
        ∧ g2.inputTypes = g0.inputTypes
        ∧ g2.outputs = g0.outputs.map (redirectBy cid ((es.map Prod.fst).zip oids))
        ∧ (∀ id n, ¬ id = 0 → nodeOf g0 id = some n →
             ∃ n', nodeOf g2 id = some n'
               ∧ n'.id = n.id ∧ n'.kind = n.kind ∧ n'.outTypes = n.outTypes
               ∧ n'.attrs = n.attrs ∧ n'.stage = n.stage ∧ n'.sub = n.sub
               ∧ n'.inputs = n.inputs.map (redirectBy cid ((es.map Prod.fst).zip oids)))
        ∧ (∀ i oid, oids.get? i = some oid →
             ∃ e ctt opn, es.get? i = some e
               ∧ expectTensor e.2 = some ctt
               ∧ nodeOf g2 oid = some opn
               ∧ opn.id = oid ∧ opn.kind = pk ∧ opn.attrs = pattrs ∧ opn.stage = amb
               ∧ opn.outTypes = [some (Ty.tensor ctt.contiguous)]
               ∧ opn.inputs = splitIds.map (fun sid => (⟨sid, e.1⟩ : ValueRef))) := by
  intro es
  induction es with
  | nil =>
    intro g0 idx0 ip0 g2 idx2 ipz hw hpos hcid hsp h hstep
    rw [List.foldlM_nil, Outcome.pure_eq_ok] at h
    injection h with e
    injection e with e1 e
    injection e with e2 e3
    subst e1
    refine ⟨[], rfl, hw, Nat.le_refl _, ?_, by simp, rfl, ?_, ?_, ?_⟩
    · intro j hj
      simp at hj
    · show g0.outputs = g0.outputs.map (redirectBy cid [])
      rw [map_redirectBy_nil]
    · intro id n h0 hn
      refine ⟨n, hn, rfl, rfl, rfl, rfl, rfl, rfl, ?_⟩
      show n.inputs = n.inputs.map (redirectBy cid [])
      rw [map_redirectBy_nil]
    · intro i oid hoid
      simp at hoid
  | cons e rest ih =>
    intro g0 idx0 ip0 g2 idx2 ipz hw hpos hcid hsp h hstep
    rw [List.foldlM_cons] at h
    rcases Outcome.bind_eq_ok.mp h with ⟨s1, h1, h⟩
    rcases hstep g0 idx0 ip0 e s1 h1 with ⟨ctt, hctt, hs1⟩
    subst hs1
    have hw1 : wfIds (cloneStepGraph pk pattrs amb cid splitIds g0 ip0 e.1 ctt) :=
      wfIds_replaceAll (wfIds_insertAfter hw rfl)
    rcases ih _ _ _ g2 idx2 ipz hw1 (by show 0 < g0.fresh + 1; omega)
      (by show cid < g0.fresh + 1; omega) hsp h hstep with
      ⟨oids, holen, hw2, hfr, hbnd, hcnt, hity, hout, htrans, hclone⟩
    have hfr' : g0.fresh + 1 ≤ g2.fresh := hfr
    have hassoc : (((e :: rest).map Prod.fst).zip (g0.fresh :: oids))
        = (e.1, g0.fresh) :: ((rest.map Prod.fst).zip oids) := rfl
    have hocid : ¬ g0.fresh = cid := by omega
    have hlen1 : (cloneStepGraph pk pattrs amb cid splitIds g0 ip0 e.1 ctt).nodes.length
        = g0.nodes.length + 1 := by
      unfold cloneStepGraph replaceAllUsesWith
      dsimp
      rw [List.length_map, List.Perm.length_eq (insertAfterId_perm _ _ _)]
      rfl
    have hG1out : (cloneStepGraph pk pattrs amb cid splitIds g0 ip0 e.1 ctt).outputs
        = g0.outputs.map (fun r =>
            if r = (⟨cid, e.1⟩ : ValueRef) then (⟨g0.fresh, 0⟩ : ValueRef) else r) := rfl
    refine ⟨g0.fresh :: oids, by simp [holen], hw2, by omega, ?_, ?_, hity, ?_, ?_, ?_⟩
    · intro j hj
      rcases List.mem_cons.mp hj with rfl | hj
      · exact ⟨Nat.le_refl _, by omega⟩
      · have h2 : g0.fresh + 1 ≤ j := (hbnd j hj).1
        exact ⟨by omega, (hbnd j hj).2⟩
    · simp only [List.length_cons]
      omega
    · rw [hout, hassoc, hG1out, List.map_map]
      apply List.map_congr_left
      intro r hr
      exact redirectBy_step hocid r
    · intro id n h0 hn
      have hb := nodeOf_some_bound hw h0 hn
      have hne : ¬ (cloneNodeOf pk pattrs amb g0.fresh splitIds e.1 ctt).id = id := by
        show ¬ g0.fresh = id
        omega
      have hn1 : nodeOf (cloneStepGraph pk pattrs amb cid splitIds g0 ip0 e.1 ctt) id
          = some { n with inputs := n.inputs.map (fun r =>
              if r = (⟨cid, e.1⟩ : ValueRef) then (⟨g0.fresh, 0⟩ : ValueRef) else r) } := by
        unfold cloneStepGraph
        rw [nodeOf_replaceAll h0, nodeOf_insertAfter_ne h0 hne, hn]
        rfl
      rcases htrans id _ h0 hn1 with
        ⟨n', hn', hid', hkind', hout', hattrs', hstage', hsub', hin'⟩
      refine ⟨n', hn', hid', hkind', hout', hattrs', hstage', hsub', ?_⟩
      rw [hin', hassoc]
      dsimp
      rw [List.map_map]
      apply List.map_congr_left
      intro r hr
      exact redirectBy_step hocid r
    · intro i oid hoid
      cases i with
      | zero =>
        have he : some g0.fresh = some oid := hoid
        injection he with he
        subst he
        have hfreshmem : ∀ m ∈ g0.nodes,
            ¬ m.id = (cloneNodeOf pk pattrs amb g0.fresh splitIds e.1 ctt).id := by
          intro m hm
          have := hw.2 m hm
          show ¬ m.id = g0.fresh
          omega
        have hne0 : ¬ (cloneNodeOf pk pattrs amb g0.fresh splitIds e.1 ctt).id = 0 := by
          show ¬ g0.fresh = 0
          omega
        have hself : nodeOf
            { g0 with
                nodes := insertAfterId g0.nodes ip0
                  (cloneNodeOf pk pattrs amb g0.fresh splitIds e.1 ctt),
                fresh := g0.fresh + 1 }
            g0.fresh = some (cloneNodeOf pk pattrs amb g0.fresh splitIds e.1 ctt) :=
          nodeOf_insertAfter_self hfreshmem hne0
        have hn1self : nodeOf (cloneStepGraph pk pattrs amb cid splitIds g0 ip0 e.1 ctt)
            g0.fresh = some (cloneNodeOf pk pattrs amb g0.fresh splitIds e.1 ctt) := by
          unfold cloneStepGraph
          rw [nodeOf_replaceAll (by omega), hself]
          simp only [Option.map_some']
          dsimp [cloneNodeOf]
          rw [map_splitRefs_subst hsp]
        rcases htrans g0.fresh _ (by omega) hn1self with
          ⟨opn', hopn', hid', hkind', hout', hattrs', hstage', hsub', hin'⟩
        refine ⟨e, ctt, opn', rfl, hctt, hopn', hid', hkind', hattrs', hstage', hout', ?_⟩
        rw [hin']
        exact map_splitRefs_redirect hsp
      | succ i =>
        have hoid' : oids.get? i = some oid := hoid
        rcases hclone i oid hoid' with ⟨e', ctt', opn', hes, rest'⟩
        exact ⟨e', ctt', opn', hes, rest'⟩

/-- C4 (amended, success direction): when `tryToMoveChunk` reports a
change, all the claim's pattern checks did hold, the splittee moreover had
exactly one output, and the rewrite destroyed the original split and the
original op while creating one fresh `split` per operand (carrying the
chunk's attributes and arity and consuming that operand) and one clone of
the op per chunk index, whose single output type is the corresponding
chunk output's tensor type made contiguous and whose inputs read the
matching output of every fresh split; every other node survives with each
use of a chunk output replaced by output 0 of the corresponding clone, and
the graph outputs are rerouted the same way. -/
theorem C4_rewrite {g : Graph} {idx : TopoIdx} {consumer : Nat} {p : ValueRef} {amb : Nat}
    {g' : Graph} {idx' : TopoIdx}
    (hw : wfIds g)
    (h : tryToMoveChunk g idx consumer p amb = Outcome.ok (g', idx', true)) :
    ∃ chunk pc pcn, ∃ splitIds oids : List Nat,
      nodeOf g p.node = some chunk
      ∧ isChunk chunk = true
      ∧ chunk.inputs = [pc]
      ∧ nodeOf g pc.node = some pcn
      ∧ isFusable g pcn = some true
      ∧ allUsersAreThisConsumer g chunk.id pc = true
      ∧ ((List.range chunk.outTypes.length).all (fun i =>
          (usesOf g ⟨chunk.id, i⟩).all (fun u => decide (u = User.node consumer)))) = true
      ∧ pcn.outTypes.length = 1
      ∧ nodeOf g' chunk.id = none
      ∧ nodeOf g' pc.node = none
      ∧ g'.nodes.length + 2 = g.nodes.length + pcn.inputs.length + chunk.outTypes.length
      ∧ splitIds.length = pcn.inputs.length
      ∧ oids.length = chunk.outTypes.length
      ∧ (∀ i sid, splitIds.get? i = some sid →
           ∃ sn op, pcn.inputs.get? i = some op
             ∧ nodeOf g' sid = some sn
             ∧ sn.kind = ksplit ∧ sn.attrs = chunk.attrs ∧ sn.stage = amb
             ∧ sn.outTypes.length = chunk.outTypes.length
             ∧ sn.inputs
                 = [redirectBy chunk.id ((List.range chunk.outTypes.length).zip oids) op])
      ∧ (∀ j oid, oids.get? j = some oid →
           ∃ ct ctt opn, chunk.outTypes.get? j = some ct
             ∧ expectTensor ct = some ctt
             ∧ nodeOf g' oid = some opn
             ∧ opn.kind = pcn.kind ∧ opn.attrs = pcn.attrs ∧ opn.stage = amb
             ∧ opn.outTypes = [some (Ty.tensor ctt.contiguous)]
             ∧ opn.inputs = splitIds.map (fun sid => (⟨sid, j⟩ : ValueRef)))
      ∧ (∀ id n, ¬ id = 0 → ¬ id = chunk.id → ¬ id = pc.node → nodeOf g id = some n →
           ∃ n', nodeOf g' id = some n'
             ∧ n'.kind = n.kind ∧ n'.outTypes = n.outTypes ∧ n'.attrs = n.attrs
             ∧ n'.stage = n.stage ∧ n'.sub = n.sub
             ∧ n'.inputs = n.inputs.map
                 (redirectBy chunk.id ((List.range chunk.outTypes.length).zip oids)))
      ∧ g'.outputs = g.outputs.map
          (redirectBy chunk.id ((List.range chunk.outTypes.length).zip oids)) := by
  unfold tryToMoveChunk at h
  rcases Outcome.bind_eq_ok.mp h with ⟨chunk, hchunk0, h⟩
  have hchunk : nodeOf g p.node = some chunk := Outcome.lift_eq_ok.mp hchunk0
  split at h
  · rw [Outcome.pure_eq_ok] at h
    injection h with e
    injection e with e1 e
    injection e with e2 e3
    exact Bool.noConfusion e3
  · rename_i hT1
    have hchunkT : isChunk chunk = true := not_not.mp hT1
    rcases Outcome.bind_eq_ok.mp h with ⟨pc, hpc0, h⟩
    have hinputs : chunk.inputs = [pc] := inputSingle_eq hpc0
    rcases Outcome.bind_eq_ok.mp h with ⟨pcn, hpcn0, h⟩
    have hpcn : nodeOf g pc.node = some pcn := Outcome.lift_eq_ok.mp hpcn0
    rcases Outcome.bind_eq_ok.mp h with ⟨fus, hfus0, h⟩
    have hfus : isFusable g pcn = some fus := Outcome.lift_eq_ok.mp hfus0
    split at h
    · rw [Outcome.pure_eq_ok] at h
      injection h with e
      injection e with e1 e
      injection e with e2 e3
      exact Bool.noConfusion e3
    · rename_i hT2
      have hcond : (fus && allUsersAreThisConsumer g chunk.id pc) = true := not_not.mp hT2
      have hfusT : fus = true := Bool.and_elim_left hcond
      have husers : allUsersAreThisConsumer g chunk.id pc = true := Bool.and_elim_right hcond
      split at h
      · rw [Outcome.pure_eq_ok] at h
        injection h with e
        injection e with e1 e
        injection e with e2 e3
        exact Bool.noConfusion e3
      · rename_i hT3
        have hall : ((List.range chunk.outTypes.length).all (fun i =>
            (usesOf g ⟨chunk.id, i⟩).all (fun u => decide (u = User.node consumer)))) = true :=
          not_not.mp hT3
        rcases Outcome.bind_eq_ok.mp h with ⟨u, hjas, h⟩
        have hlen1 : pcn.outTypes.length = 1 := of_decide_eq_true (jassert_eq_ok.mp hjas)
        have hp00 : ¬ p.node = 0 := by
          intro h0
          rw [h0] at hchunk
          unfold nodeOf at hchunk
          rw [if_pos rfl] at hchunk
          injection hchunk with e
          rw [← e] at hchunkT
          simp [isChunk, paramNode] at hchunkT
        have hcidp : chunk.id = p.node := (nodeOf_decomp hw.1 hp00 hchunk).1
        have hchunkAt : nodeOf g chunk.id = some chunk := by
          rw [hcidp]
          exact hchunk
        have hc0 : ¬ chunk.id = 0 := by
          rw [hcidp]
          exact hp00
        have hpc00 : ¬ pc.node = 0 := by
          intro h0
          rw [h0] at hpcn
          unfold nodeOf at hpcn
          rw [if_pos rfl] at hpcn
          injection hpcn with e
          rw [← e, hfusT] at hfus
          have hpf : isFusable g (paramNode g) = some false := rfl
          rw [hpf] at hfus
          injection hfus with e2
          exact Bool.noConfusion e2
        have hpcneq : ¬ pc.node = chunk.id := by
          intro he
          rw [he, hchunkAt] at hpcn
          injection hpcn with e
          have hkind : chunk.kind = ksplit := by
            have hck := hchunkT
            unfold isChunk at hck
            exact of_decide_eq_true hck
          rw [← e, hfusT] at hfus
          unfold isFusable at hfus
          rw [if_neg (by rw [hkind]; decide)] at hfus
          have hsm : isSimpleMap chunk = false := by
            unfold isSimpleMap
            rw [hkind]
            rw [if_neg (by decide)]
          rw [if_neg (by rw [hsm]; simp)] at hfus
          injection hfus with e2
          exact Bool.noConfusion e2
        rcases Outcome.bind_eq_ok.mp h with ⟨⟨g1, idx1, splitIds, ip1⟩, h1, h⟩
        try dsimp only at h
        rcases Outcome.bind_eq_ok.mp h with ⟨⟨g2, idx2, ipz⟩, h2, h⟩
        try dsimp only at h
        rw [Outcome.pure_eq_ok] at h
        injection h with e
        injection e with e1 e
        have hfrg : chunk.id < g.fresh := nodeOf_some_bound hw hc0 hchunkAt
        have hpcb : pc.node < g.fresh := nodeOf_some_bound hw hpc00 hpcn
        have hposg : 0 < g.fresh := by omega
        rcases chunkSplitFold_spec chunk.attrs chunk.outTypes.length amb pcn.inputs
            g idx [] chunk.id g1 idx1 splitIds ip1 hw hposg h1
            (by
              intro gs idxs acc' ip op s' hst
              dsimp only at hst
              rcases Outcome.bind_eq_ok.mp hst with ⟨sn, hsn, hst⟩
              rw [Outcome.pure_eq_ok] at hst
              injection hst with e'
              subst e'
              rcases mkInputChunk_spec hsn with
                ⟨hid, hkindS, hin, hstage, hattrsS, hsub, hlenS⟩
              exact ⟨sn, rfl, hid, hkindS, hin, hstage, hattrsS, hlenS⟩)
          with ⟨newIds, hsids, hnlen, hw1, hfr1, hbnd1, hcnt1, hout1, hity1, htrans1, hsplit1⟩
        have hsplitIds : splitIds = newIds := hsids
        have hspNe : ∀ sid ∈ splitIds, ¬ sid = chunk.id := by
          intro sid hsid
          rw [hsplitIds] at hsid
          have := hbnd1 sid hsid
          omega
        rcases chunkCloneFold_spec pcn.kind pcn.attrs amb chunk.id splitIds
            chunk.outTypes.enum g1 idx1 ip1 g2 idx2 ipz hw1 (by omega) (by omega) hspNe h2
            (by
              intro gs idxs ip e s' hst
              dsimp only at hst
              rcases Outcome.bind_eq_ok.mp hst with ⟨ctt, hctt, hst⟩
              rw [Outcome.pure_eq_ok] at hst
              injection hst with e'
              exact ⟨ctt, Outcome.lift_eq_ok.mp hctt, e'.symm⟩)
          with ⟨oids, holen2, hw2, hfr2, hbnd2, hcnt2, hity2, hout2, htrans2, hclone2⟩
        have henum : chunk.outTypes.enum.map Prod.fst = List.range chunk.outTypes.length :=
          List.enum_map_fst _
        rw [henum] at hout2 htrans2
        rcases htrans2 chunk.id chunk hc0 (htrans1 chunk.id chunk hc0 hchunkAt) with
          ⟨a2, ha2, hrestA⟩
        rcases htrans2 pc.node pcn hpc00 (htrans1 pc.node pcn hpc00 hpcn) with
          ⟨b2, hb2, hrestB⟩
        have hd1w : wfIds (destroy g2 chunk.id) := wfIds_destroy hw2
        have hlenD1 : (destroy g2 chunk.id).nodes.length + 1 = g2.nodes.length :=
          destroy_length hw2.1 hc0 ha2
        have hafter1 : nodeOf (destroy g2 chunk.id) pc.node = some b2 := by
          rw [nodeOf_destroy_ne hpc00 hpcneq]
          exact hb2
        have hlenD2 : (destroy (destroy g2 chunk.id) pc.node).nodes.length + 1
            = (destroy g2 chunk.id).nodes.length :=
          destroy_length hd1w.1 hpc00 hafter1
        have hnone1 : nodeOf (destroy (destroy g2 chunk.id) pc.node) chunk.id = none := by
          rw [nodeOf_destroy_ne hc0 (fun hh => hpcneq hh.symm)]
          exact nodeOf_destroy_self' hw2.1 hc0
        have hnone2 : nodeOf (destroy (destroy g2 chunk.id) pc.node) pc.node = none :=
          nodeOf_destroy_self' hd1w.1 hpc00
        have hcnt2' : g2.nodes.length = g1.nodes.length + chunk.outTypes.length := by
          rw [hcnt2, List.enum_length]
        subst e1
        refine ⟨chunk, pc, pcn, splitIds, oids, hchunk, hchunkT, hinputs, hpcn, ?_,
          husers, hall, hlen1, hnone1, hnone2, ?_, ?_, ?_, ?_, ?_, ?_, ?_⟩
        · rw [← hfusT]
          exact hfus
        · omega
        · rw [hsplitIds]
          exact hnlen
        · rw [holen2, List.enum_length]
        · intro i sid hsid
          have hsid' : newIds.get? i = some sid := by
            rw [← hsplitIds]
            exact hsid
          rcases hsplit1 i sid hsid' with
            ⟨sn, op, hop, hsn, hsnid, hsnkind, hsnin, hsnstage, hsnattrs, hsnlen⟩
          have hmem : sid ∈ newIds := List.get?_mem hsid'
          have hb := hbnd1 sid hmem
          have hsid0 : ¬ sid = 0 := by omega
          rcases htrans2 sid sn hsid0 hsn with
            ⟨sn', hsn', hid', hkind', hout', hattrs', hstage', hsub', hin'⟩
          refine ⟨sn', op, hop, ?_, ?_, ?_, ?_, ?_, ?_⟩
          · rw [nodeOf_destroy_ne hsid0 (by omega), nodeOf_destroy_ne hsid0 (by omega)]
            exact hsn'
          · rw [hkind']
            exact hsnkind
          · rw [hattrs']
            exact hsnattrs
          · rw [hstage']
            exact hsnstage
          · rw [hout']
            exact hsnlen
          · rw [hin', hsnin]
            rfl
        · intro j oid hoid
          rcases hclone2 j oid hoid with
            ⟨e', ctt, opn, hes, hctt, hopn, hoidid, hkindC, hattrsC, hstageC, houtC, hinC⟩
          rw [List.get?_enum] at hes
          rcases Option.map_eq_some'.mp hes with ⟨ct, hct, hect⟩
          have hj1 : e'.1 = j := by
            rw [← hect]
          have hj2 : e'.2 = ct := by
            rw [← hect]
          have hob := hbnd2 oid (List.get?_mem hoid)
          have hoid0 : ¬ oid = 0 := by omega
          refine ⟨ct, ctt, opn, hct, ?_, ?_, hkindC, hattrsC, hstageC, houtC, ?_⟩
          · rw [← hj2]
            exact hctt
          · rw [nodeOf_destroy_ne hoid0 (by omega), nodeOf_destroy_ne hoid0 (by omega)]
            exact hopn
          · rw [hinC, hj1]
        · intro id n h0 hcne hpne hn
          have hn1 : nodeOf g1 id = some n := htrans1 id n h0 hn
          rcases htrans2 id n h0 hn1 with
            ⟨n', hn', hid', hkind', hout', hattrs', hstage', hsub', hin'⟩
          refine ⟨n', ?_, hkind', hout', hattrs', hstage', hsub', hin'⟩
          rw [nodeOf_destroy_ne h0 hpne, nodeOf_destroy_ne h0 hcne]
          exact hn'
        · show g2.outputs = g.outputs.map
            (redirectBy chunk.id ((List.range chunk.outTypes.length).zip oids))
          rw [hout2, hout1]

/-- C4 counterexample: on `exMultiOut` every pattern check of the claim
holds — the producer feeding the split is fusable (a fusion group), the
split is the only user of the tapped output, and both chunk outputs feed
only the consumer — yet `tryToMoveChunk` does not perform the rewrite: the
producer has two outputs and the call aborts on the assertion instead. -/
theorem C4_counterexample :
    ((nodeOf exMultiOut 3).map isChunk = some true)
    ∧ ((nodeOf exMultiOut 5).bind (isFusable exMultiOut) = some true)
    ∧ allUsersAreThisConsumer exMultiOut 3 ⟨5, 1⟩ = true
    ∧ ((List.range 2).all (fun i =>
        (usesOf exMultiOut ⟨3, i⟩).all (fun u => decide (u = User.node 4)))) = true
    ∧ ((nodeOf exMultiOut 5).map (fun n => n.outTypes.length) = some 2)
    ∧ tryToMoveChunk exMultiOut (initIdx exMultiOut) 4 ⟨3, 0⟩ 0 = Outcome.asserted := by
  decide

/-- C4 witness: the successful distribution on `exChunk` satisfies all the
amended theorem's conclusions (checks held, splittee single-output, both
originals destroyed, two fresh splits and two contiguously typed op clones
created, every other node and the graph outputs rerouted to the clones). -/
theorem C4_witness :
    ∃ chunk pc pcn, ∃ splitIds oids : List Nat,
      nodeOf exChunk ((⟨2, 0⟩ : ValueRef)).node = some chunk
      ∧ isChunk chunk = true
      ∧ chunk.inputs = [pc]
      ∧ nodeOf exChunk pc.node = some pcn
      ∧ isFusable exChunk pcn = some true
      ∧ allUsersAreThisConsumer exChunk chunk.id pc = true
      ∧ ((List.range chunk.outTypes.length).all (fun i =>
          (usesOf exChunk ⟨chunk.id, i⟩).all (fun u => decide (u = User.node 3)))) = true
      ∧ pcn.outTypes.length = 1
      ∧ nodeOf c4Graph chunk.id = none
      ∧ nodeOf c4Graph pc.node = none
      ∧ c4Graph.nodes.length + 2
          = exChunk.nodes.length + pcn.inputs.length + chunk.outTypes.length
      ∧ splitIds.length = pcn.inputs.length
      ∧ oids.length = chunk.outTypes.length
      ∧ (∀ i sid, splitIds.get? i = some sid →
           ∃ sn op, pcn.inputs.get? i = some op
             ∧ nodeOf c4Graph sid = some sn
             ∧ sn.kind = ksplit ∧ sn.attrs = chunk.attrs ∧ sn.stage = 0
             ∧ sn.outTypes.length = chunk.outTypes.length
             ∧ sn.inputs
                 = [redirectBy chunk.id ((List.range chunk.outTypes.length).zip oids) op])
      ∧ (∀ j oid, oids.get? j = some oid →
           ∃ ct ctt opn, chunk.outTypes.get? j = some ct
             ∧ expectTensor ct = some ctt
             ∧ nodeOf c4Graph oid = some opn
             ∧ opn.kind = pcn.kind ∧ opn.attrs = pcn.attrs ∧ opn.stage = 0
             ∧ opn.outTypes = [some (Ty.tensor ctt.contiguous)]
             ∧ opn.inputs = splitIds.map (fun sid => (⟨sid, j⟩ : ValueRef)))
      ∧ (∀ id n, ¬ id = 0 → ¬ id = chunk.id → ¬ id = pc.node →
           nodeOf exChunk id = some n →
           ∃ n', nodeOf c4Graph id = some n'
             ∧ n'.kind = n.kind ∧ n'.outTypes = n.outTypes ∧ n'.attrs = n.attrs
             ∧ n'.stage = n.stage ∧ n'.sub = n.sub
             ∧ n'.inputs = n.inputs.map
                 (redirectBy chunk.id ((List.range chunk.outTypes.length).zip oids)))
      ∧ c4Graph.outputs = exChunk.outputs.map
          (redirectBy chunk.id ((List.range chunk.outTypes.length).zip oids)) :=
  C4_rewrite
    (by unfold wfIds uniqueIds uniqueIdsL freshBound freshBoundL; decide)
    (rfl : tryToMoveChunk exChunk (initIdx exChunk) 3 ⟨2, 0⟩ 0
      = Outcome.ok (c4Graph, c4Idx, true))

/-- C6 witness: in `exTwoSweep` the loop at consumer 4 acts on the
producer `⟨3, 0⟩`, whose stage is the consumer's stage 0. -/
theorem C6_witness :
    stageOfValue exTwoSweep ⟨3, 0⟩ = some 0 := by
  have hrun :
      scanProducers exTwoSweep (initIdx exTwoSweep) 4 0 [⟨3, 0⟩]
        = Outcome.ok (some (⟨3, 0⟩,
            (match scanProducers exTwoSweep (initIdx exTwoSweep) 4 0 [⟨3, 0⟩] with
             | Outcome.ok (some (_, r)) => r
             | _ => (exTwoSweep, initIdx exTwoSweep, 0)))) := by decide
  exact C6_no_cross_stage exTwoSweep (initIdx exTwoSweep) 4 0 [⟨3, 0⟩] ⟨3, 0⟩ _ hrun

end GraphFuser
